import Mathlib

/-!
# Verification of `hashmap.c` (nick-jones/hashmap)

A shallow embedding of the fixed-capacity, separately chained string hash map of
`src/hashmap.c`, and theorems about it.

Conventions of the embedding.

* Machine integers are natural numbers reduced explicitly: `unsigned int` is 32 bits
  wide (`map->size`, `map->capacity`, bucket indexes), `unsigned long` is 64 bits
  wide (the hash), as on LP64 targets.
* Whether plain `char` is signed is implementation defined; the functions that read
  characters take it as the parameter `sg` (`true`: signed, as on x86-64;
  `false`: unsigned, as on AArch64 Linux).
* A NUL-terminated string is the list of its bytes before the terminator (`CStr`).
* A bucket chain (`Entry` nodes linked through `next`) is the list of its nodes from
  the bucket head on; `next` is the list structure.
* A pointer returned into the map (`Entry *`) is a position: bucket index and offset
  in the chain.
* Functions whose C execution can be undefined (a comparison reading a key that is
  not a string, a remainder by zero, a bucket access out of bounds, a release of a
  released buffer) return `Option`: `none` is undefined behaviour.
* Every allocation takes a flag saying whether it succeeds.
-/

namespace Hashmap

/-- The bytes of a NUL-terminated C string, terminator excluded: each one is a
non-zero byte. -/
structure CStr where
  bytes : List Nat
  valid : ∀ b ∈ bytes, 0 < b ∧ b < 256
  deriving DecidableEq

/-- A `char *` field of an entry: `NULL`, a pointer to an owned buffer holding a
string, or a pointer whose buffer has been released. -/
inductive CharPtr where
  | null : CharPtr
  | str (s : CStr) : CharPtr
  | dangling : CharPtr
  deriving DecidableEq

/-- The record `struct Entry` without its `next` link, which is the position of the
node in its chain. -/
structure Entry where
  key : CharPtr
  value : CharPtr
  deriving DecidableEq

/-- The record `struct HashMap`; `entries[i]` is the chain of bucket `i`. -/
structure HashMap where
  size : Nat
  capacity : Nat
  entries : List (List Entry)
  deriving DecidableEq

/-- Outcome of the allocations that one `hashmap_put` call can make: the new entry
(`hashmap_create_entry`), the key copy and the value copy (`hashmap_populate_entry`),
the value reallocation (`hashmap_replace_entry_value`). -/
structure Allocs where
  entry : Bool
  key : Bool
  value : Bool
  realloc : Bool
  deriving DecidableEq

/-- Every allocation succeeds. -/
def Allocs.ok : Allocs := ⟨true, true, true, true⟩

/-- Location of an entry inside a map: bucket index and offset in its chain. -/
abbrev EntryRef := Nat × Nat

/-- The statement `n++` on an `unsigned int`: `2 ^ 32 - 1` wraps to zero. -/
def uint_inc (n : Nat) : Nat := (n + 1) % 2 ^ 32

/-- The statement `n--` on an `unsigned int`: zero wraps to `2 ^ 32 - 1`. -/
def uint_dec (n : Nat) : Nat := if n = 0 then 2 ^ 32 - 1 else n - 1

/-- The value of `(unsigned long) c` for `int c = *str`, the byte `b` read through
a plain `char`: sign extended when `char` is signed and the byte is above 127. -/
def char_to_ulong (sg : Bool) (b : Nat) : Nat :=
  if sg && decide (128 ≤ b) then 2 ^ 64 - 256 + b else b

/-- The loop of `hashmap_hash`: `hash = ((hash << 5) + hash) + c` for each
character in turn, in 64-bit unsigned arithmetic. -/
def hashmap_hash_loop (sg : Bool) : Nat → List Nat → Nat
  | hash, [] => hash
  | hash, b :: rest =>
    hashmap_hash_loop sg
      (((((hash <<< 5) % 2 ^ 64) + hash) % 2 ^ 64 + char_to_ulong sg b) % 2 ^ 64) rest

/-- The function `hashmap_hash`. -/
def hashmap_hash (sg : Bool) (str : CStr) : Nat :=
  hashmap_hash_loop sg 5381 str.bytes

/-- The function `hashmap_index`: `hash % map->capacity`, returned as `unsigned int`;
undefined when the capacity is zero. -/
def hashmap_index (sg : Bool) (map : HashMap) (key : CStr) : Option Nat :=
  if map.capacity = 0 then none
  else some ((hashmap_hash sg key % map.capacity) % 2 ^ 32)

/-- The test `strcmp(p, key) == 0`: undefined unless `p` points to a string. -/
def strcmp_eq_zero (p : CharPtr) (key : CStr) : Option Bool :=
  match p with
  | CharPtr.str s => some (decide (s = key))
  | _ => none

/-- The function `hashmap_create`; `none` is the `NULL` result. -/
def hashmap_create (mapOk entriesOk : Bool) (capacity : Nat) : Option HashMap :=
  if !mapOk then none
  else if !entriesOk then none
  else some { size := 0, capacity := capacity, entries := List.replicate capacity [] }

/-- The function `hashmap_create_entry`; `none` is the `NULL` result. -/
def hashmap_create_entry (ok : Bool) : Option Entry :=
  if ok then some { key := CharPtr.null, value := CharPtr.null } else none

/-- The function `hashmap_destroy_entry`: releasing a released buffer is undefined. -/
def hashmap_destroy_entry (entry : Entry) : Option Unit :=
  if entry.key = CharPtr.dangling ∨ entry.value = CharPtr.dangling then none
  else some ()

/-- The loop of `hashmap_locate_entry` over one chain; the result is the node found,
if any. -/
def hashmap_locate_entry_loop (key : CStr) : List Entry → Option (Option Entry)
  | [] => some none
  | entry :: next =>
    match strcmp_eq_zero entry.key key with
    | none => none
    | some true => some (some entry)
    | some false => hashmap_locate_entry_loop key next

/-- The function `hashmap_locate_entry`. -/
def hashmap_locate_entry (sg : Bool) (map : HashMap) (key : CStr) :
    Option (Option Entry) :=
  match hashmap_index sg map key with
  | none => none
  | some index =>
    match map.entries[index]? with
    | none => none
    | some chain => hashmap_locate_entry_loop key chain

/-- The function `hashmap_get`; `result` is the content of the out-parameter, which
is written only when the key is found. -/
def hashmap_get (sg : Bool) (map : HashMap) (key : CStr) (result : CharPtr) :
    Option (Nat × CharPtr) :=
  match hashmap_locate_entry sg map key with
  | none => none
  | some none => some (0, result)
  | some (some entry) => some (1, entry.value)

/-- The function `hashmap_contains`. -/
def hashmap_contains (sg : Bool) (map : HashMap) (key : CStr) : Option Nat :=
  match hashmap_locate_entry sg map key with
  | none => none
  | some none => some 0
  | some (some _) => some 1

/-- The loop and tail of `hashmap_entry_for_key` over one chain, `pos` being the
offset of the chain's first node: the chain afterwards and the offset of the entry
returned (`none` for `NULL`). A new entry is linked after the last node, or as the
head when there is none. -/
def hashmap_entry_for_key_loop (ok : Bool) (key : CStr) :
    List Entry → Nat → Option (List Entry × Option Nat)
  | [], pos =>
    match hashmap_create_entry ok with
    | none => some ([], none)
    | some entry => some ([entry], some pos)
  | existing :: next, pos =>
    match strcmp_eq_zero existing.key key with
    | none => none
    | some true => some (existing :: next, some pos)
    | some false =>
      match hashmap_entry_for_key_loop ok key next (pos + 1) with
      | none => none
      | some (next', r) => some (existing :: next', r)

/-- The function `hashmap_entry_for_key`. -/
def hashmap_entry_for_key (sg : Bool) (ok : Bool) (map : HashMap) (key : CStr) :
    Option (HashMap × Option EntryRef) :=
  match hashmap_index sg map key with
  | none => none
  | some index =>
    match map.entries[index]? with
    | none => none
    | some chain =>
      match hashmap_entry_for_key_loop ok key chain 0 with
      | none => none
      | some (chain', r) =>
        some ({ map with entries := map.entries.set index chain' },
          r.map (fun pos => (index, pos)))

/-- The function `hashmap_replace_entry_value`: on success the value is a copy of
`value`; a failed `realloc` leaves the entry as it was. -/
def hashmap_replace_entry_value (ok : Bool) (entry : Entry) (value : CStr) :
    Option (Entry × Nat) :=
  match entry.value with
  | CharPtr.dangling => none
  | _ => if ok then some ({ entry with value := CharPtr.str value }, 1) else some (entry, 0)

/-- The function `hashmap_populate_entry`. When the key cannot be allocated
`entry->key` is `NULL`; when the value cannot be allocated `entry->value` is `NULL`
and `entry->key` still holds the address of the released key buffer. -/
def hashmap_populate_entry (keyOk valueOk : Bool) (entry : Entry) (key value : CStr) :
    Entry × Nat :=
  if !keyOk then ({ entry with key := CharPtr.null }, 0)
  else if !valueOk then ({ key := CharPtr.dangling, value := CharPtr.null }, 0)
  else ({ key := CharPtr.str key, value := CharPtr.str value }, 1)

/-- Reading the entry a reference points to. -/
def entry_at (map : HashMap) (r : EntryRef) : Option Entry :=
  match map.entries[r.1]? with
  | none => none
  | some chain => chain[r.2]?

/-- Writing the entry a reference points to. -/
def set_entry_at (map : HashMap) (r : EntryRef) (entry : Entry) : HashMap :=
  match map.entries[r.1]? with
  | none => map
  | some chain => { map with entries := map.entries.set r.1 (chain.set r.2 entry) }

/-- The function `hashmap_put`. -/
def hashmap_put (sg : Bool) (a : Allocs) (map : HashMap) (key value : CStr) :
    Option (HashMap × Nat) :=
  match hashmap_entry_for_key sg a.entry map key with
  | none => none
  | some (map1, none) => some (map1, 0)
  | some (map1, some r) =>
    match entry_at map1 r with
    | none => none
    | some entry =>
      if entry.key ≠ CharPtr.null then
        match hashmap_replace_entry_value a.realloc entry value with
        | none => none
        | some (entry', ret) => some (set_entry_at map1 r entry', ret)
      else
        let map2 := { map1 with size := uint_inc map1.size }
        let res := hashmap_populate_entry a.key a.value entry key value
        some (set_entry_at map2 r res.1, res.2)

/-- The loop of `hashmap_remove` over one chain: `none` when no node has the key,
else the chain with the first such node unlinked and destroyed. -/
def hashmap_remove_loop (key : CStr) : List Entry → Option (Option (List Entry))
  | [] => some none
  | entry :: next =>
    match strcmp_eq_zero entry.key key with
    | none => none
    | some true =>
      match hashmap_destroy_entry entry with
      | none => none
      | some _ => some (some next)
    | some false =>
      match hashmap_remove_loop key next with
      | none => none
      | some none => some none
      | some (some next') => some (some (entry :: next'))

/-- The function `hashmap_remove`. -/
def hashmap_remove (sg : Bool) (map : HashMap) (key : CStr) : Option (HashMap × Nat) :=
  match hashmap_index sg map key with
  | none => none
  | some index =>
    match map.entries[index]? with
    | none => none
    | some chain =>
      match hashmap_remove_loop key chain with
      | none => none
      | some none => some (map, 0)
      | some (some chain') =>
        some ({ map with
                  entries := map.entries.set index chain'
                  size := uint_dec map.size }, 1)

/-- The loop of `hashmap_clear_index` over one chain: every node is destroyed and
`map->size--` runs once per node; the result is the final size. -/
def hashmap_clear_index_loop : List Entry → Nat → Option Nat
  | [], size => some size
  | entry :: next, size =>
    match hashmap_destroy_entry entry with
    | none => none
    | some _ => hashmap_clear_index_loop next (uint_dec size)

/-- The function `hashmap_clear_index`. -/
def hashmap_clear_index (map : HashMap) (index : Nat) : Option HashMap :=
  match map.entries[index]? with
  | none => none
  | some chain =>
    match hashmap_clear_index_loop chain map.size with
    | none => none
    | some size => some { map with size := size, entries := map.entries.set index [] }

/-- The loop of `hashmap_clear`: `hashmap_clear_index` for each of the indexes in
turn. -/
def hashmap_clear_loop : List Nat → HashMap → Option HashMap
  | [], map => some map
  | i :: rest, map =>
    match hashmap_clear_index map i with
    | none => none
    | some map' => hashmap_clear_loop rest map'

/-- The function `hashmap_clear`. -/
def hashmap_clear (map : HashMap) : Option HashMap :=
  hashmap_clear_loop (List.range map.capacity) map

/-- The strings of the tests. -/
def s_foo : CStr := ⟨[102, 111, 111], by decide⟩
def s_bar : CStr := ⟨[98, 97, 114], by decide⟩
def s_baz : CStr := ⟨[98, 97, 122], by decide⟩
def s_boo : CStr := ⟨[98, 111, 111], by decide⟩
def s_test : CStr := ⟨[116, 101, 115, 116], by decide⟩
def s_a : CStr := ⟨[97], by decide⟩
def s_b : CStr := ⟨[98], by decide⟩
def s_c : CStr := ⟨[99], by decide⟩
def s_d : CStr := ⟨[100], by decide⟩
def s_e : CStr := ⟨[101], by decide⟩
def s_f : CStr := ⟨[102], by decide⟩

/-- Every node of the chain holds a key string and a value string. -/
def Populated (chain : List Entry) : Prop :=
  ∀ e ∈ chain, ∃ k v, e = { key := CharPtr.str k, value := CharPtr.str v }

/-- First node of a chain whose key is the string `key` (closed form of the scan
made by `hashmap_locate_entry`, `hashmap_entry_for_key` and `hashmap_remove`). -/
def chain_find (key : CStr) : List Entry → Option Entry
  | [] => none
  | e :: rest => if e.key = CharPtr.str key then some e else chain_find key rest

/-- Closed form of what `hashmap_put` does to the chain of the key's bucket when
every allocation succeeds. -/
def chain_put (key value : CStr) : List Entry → List Entry
  | [] => [{ key := CharPtr.str key, value := CharPtr.str value }]
  | e :: rest =>
    if e.key = CharPtr.str key then { e with value := CharPtr.str value } :: rest
    else e :: chain_put key value rest

/-- Closed form of what `hashmap_remove` does to the chain of the key's bucket. -/
def chain_erase (key : CStr) : List Entry → List Entry
  | [] => []
  | e :: rest => if e.key = CharPtr.str key then rest else e :: chain_erase key rest

/-- The chain of the bucket that `hashmap_index` selects for `key`. -/
def bucket_of (sg : Bool) (map : HashMap) (key : CStr) : List Entry :=
  (map.entries[hashmap_hash sg key % map.capacity]?).getD []

/-- Number of entry nodes linked into the bucket chains of a map. -/
def entry_count (map : HashMap) : Nat :=
  (map.entries.map List.length).sum

/-- Well-formedness of a map: a positive capacity that fits `unsigned int`, one
bucket per index, chains of populated entries with pairwise different keys, and a
size counter equal to the number of linked entries modulo `2 ^ 32`. -/
structure WF (map : HashMap) : Prop where
  cap_pos : 0 < map.capacity
  cap_lt : map.capacity < 2 ^ 32
  len : map.entries.length = map.capacity
  chains : ∀ chain ∈ map.entries, Populated chain ∧ (chain.map Entry.key).Nodup
  size_eq : map.size = entry_count map % 2 ^ 32

/-- Closed form of `hashmap_put` on a well-formed map when every allocation
succeeds. -/
def put_model (sg : Bool) (map : HashMap) (key value : CStr) : HashMap :=
  { size := if (chain_find key (bucket_of sg map key)).isSome then map.size
            else uint_inc map.size
    capacity := map.capacity
    entries := map.entries.set (hashmap_hash sg key % map.capacity)
      (chain_put key value (bucket_of sg map key)) }

/-- Closed form of a successful `hashmap_remove` on a well-formed map. -/
def remove_model (sg : Bool) (map : HashMap) (key : CStr) : HashMap :=
  { size := uint_dec map.size
    capacity := map.capacity
    entries := map.entries.set (hashmap_hash sg key % map.capacity)
      (chain_erase key (bucket_of sg map key)) }

/-- The maps that the public operations build from `hashmap_create` with a positive
capacity (an `unsigned int`), every allocation succeeding and every call defined. -/
inductive Reachable (sg : Bool) : HashMap → Prop where
  | create (capacity : Nat) (map : HashMap) (hpos : 0 < capacity)
      (hlt : capacity < 2 ^ 32) (h : hashmap_create true true capacity = some map) :
      Reachable sg map
  | put (map map' : HashMap) (key value : CStr) (ret : Nat) (hm : Reachable sg map)
      (h : hashmap_put sg Allocs.ok map key value = some (map', ret)) :
      Reachable sg map'
  | remove (map map' : HashMap) (key : CStr) (ret : Nat) (hm : Reachable sg map)
      (h : hashmap_remove sg map key = some (map', ret)) : Reachable sg map'
  | clear (map map' : HashMap) (hm : Reachable sg map)
      (h : hashmap_clear map = some map') : Reachable sg map'
  | clear_index (map map' : HashMap) (index : Nat) (hm : Reachable sg map)
      (h : hashmap_clear_index map index = some map') : Reachable sg map'

/-- Calling `hashmap_put` once for each pair of a list, in order, every allocation
succeeding; the return values are dropped. -/
def put_all (sg : Bool) : HashMap → List (CStr × CStr) → Option HashMap
  | map, [] => some map
  | map, kv :: rest =>
    match hashmap_put sg Allocs.ok map kv.1 kv.2 with
    | none => none
    | some (map', _) => put_all sg map' rest

/-- Closed form of `hashmap_clear_index` on a well-formed map. -/
def clear_index_model (map : HashMap) (index : Nat) : HashMap :=
  { size := ((2 ^ 32 - 1) * ((map.entries[index]?).getD []).length + map.size) % 2 ^ 32
    capacity := map.capacity
    entries := map.entries.set index [] }

/-- The map `hashmap_create(5)` of the tests. -/
def map5 : HashMap := { size := 0, capacity := 5, entries := List.replicate 5 [] }

/-- The `i`-th string of an enumeration without repetition: the base-255 digits of
`i`, least significant first, each raised by one (no byte is zero); `nth_key 0` is
the empty string and every `nth_key i` with `i < 2 ^ 32` has at most four bytes. -/
def nth_key (i : Nat) : CStr :=
  { bytes := (Nat.digits 255 i).map (fun d => d + 1)
    valid := fun b hb => by
      obtain ⟨d, hd, rfl⟩ := List.mem_map.mp hb
      have := Nat.digits_lt_base (by decide : 1 < 255) hd
      omega }

/-- The pairs `(k, k)` for the first `n` strings of the enumeration `nth_key`. -/
def nth_pairs (n : Nat) : List (CStr × CStr) :=
  (List.range n).map (fun i => (nth_key i, nth_key i))

/-- The map `hashmap_create(1)`. -/
def map1 : HashMap := { size := 0, capacity := 1, entries := [[]] }

/-- The map built from `hashmap_create(1)` by one `hashmap_put` for each of the first
`n` strings of the enumeration `nth_key`, every allocation succeeding: `n` entries
chained in the only bucket. -/
def nth_map (sg : Bool) (n : Nat) : Option HashMap :=
  put_all sg map1 (nth_pairs n)

/-- The djb2 reference of the specification: the left fold over the bytes, taken as
unsigned values, of `acc ↦ (acc * 33 + c) mod 2 ^ 64`, from 5381. -/
def djb2_reference (bytes : List Nat) : Nat :=
  bytes.foldl (fun acc c => (acc * 33 + c) % 2 ^ 64) 5381

/-- The map of the tests after `put("foo", "bar")` on `hashmap_create(5)`. -/
def map5_foo : HashMap :=
  { size := 1, capacity := 5,
    entries := [[], [], [], [], [{ key := CharPtr.str s_foo, value := CharPtr.str s_bar }]] }

/-- The map of the tests after `put("foo", "bar")` and `put("baz", "boo")` on
`hashmap_create(5)`. -/
def map5_foo_baz : HashMap :=
  { size := 2, capacity := 5,
    entries := [[], [], [{ key := CharPtr.str s_baz, value := CharPtr.str s_boo }], [],
      [{ key := CharPtr.str s_foo, value := CharPtr.str s_bar }]] }

/-- The map of the tests after `put("a", "test")` on `hashmap_create(5)`. -/
def map5_a : HashMap :=
  { size := 1, capacity := 5,
    entries := [[{ key := CharPtr.str s_a, value := CharPtr.str s_test }], [], [], [], []] }

/-- The map after `put("a", "foo")` and `put("f", "bar")` on `hashmap_create(5)`:
both keys are chained in bucket 0. -/
def map5_a_f : HashMap :=
  { size := 2, capacity := 5,
    entries := [[{ key := CharPtr.str s_a, value := CharPtr.str s_foo },
                 { key := CharPtr.str s_f, value := CharPtr.str s_bar }], [], [], [], []] }

/-- The one-byte string `"\x80"`. -/
def s_x80 : CStr := ⟨[128], by decide⟩

/-- Every key string chained in bucket `i` has index `i`. -/
def Placed (sg : Bool) (map : HashMap) : Prop :=
  ∀ i chain, map.entries[i]? = some chain →
    ∀ k, CharPtr.str k ∈ chain.map Entry.key → hashmap_hash sg k % map.capacity = i

/-- The allocations of a `hashmap_put` call in which only the key copy fails. -/
def Allocs.key_fails : Allocs := { entry := true, key := false, value := true, realloc := true }

/-- The allocations of a `hashmap_put` call in which only the value copy fails. -/
def Allocs.value_fails : Allocs :=
  { entry := true, key := true, value := false, realloc := true }

/-- The allocations of a `hashmap_put` call in which only the new entry fails. -/
def Allocs.entry_fails : Allocs :=
  { entry := false, key := true, value := true, realloc := true }

/-- The allocations of a `hashmap_put` call in which only the reallocation fails. -/
def Allocs.realloc_fails : Allocs :=
  { entry := true, key := true, value := true, realloc := false }

/-- The map left by `put("foo", "bar")` on `hashmap_create(5)` when the key copy
fails: an entry without key and value is chained in bucket 4 and counted. -/
def map5_null : HashMap :=
  { size := 1, capacity := 5,
    entries := [[], [], [], [], [{ key := CharPtr.null, value := CharPtr.null }]] }

/-- The map left by `put("foo", "bar")` on `hashmap_create(5)` when the value copy
fails: the entry chained in bucket 4 keeps the address of the released key buffer. -/
def map5_dangling : HashMap :=
  { size := 1, capacity := 5,
    entries := [[], [], [], [], [{ key := CharPtr.dangling, value := CharPtr.null }]] }

/-- The map left by `put("f", "bar")` on the map holding `"a"` when the key copy
fails: an entry without key follows the entry of `"a"` in bucket 0. -/
def map5_a_null : HashMap :=
  { size := 2, capacity := 5,
    entries := [[{ key := CharPtr.str s_a, value := CharPtr.str s_test },
                 { key := CharPtr.null, value := CharPtr.null }], [], [], [], []] }

/-- The map left by `hashmap_entry_for_key(map, "baz")` on `hashmap_create(5)`: an
unpopulated entry is chained in bucket 2 and the size is still 0. -/
def map5_baz_linked : HashMap :=
  { size := 0, capacity := 5,
    entries := [[], [], [{ key := CharPtr.null, value := CharPtr.null }], [], []] }

/-- The map left by `hashmap_entry_for_key(map, "baz")` on the map holding `"foo"`. -/
def map5_foo_baz_linked : HashMap :=
  { size := 1, capacity := 5,
    entries := [[], [], [{ key := CharPtr.null, value := CharPtr.null }], [],
      [{ key := CharPtr.str s_foo, value := CharPtr.str s_bar }]] }

/-- The entry that `hashmap_create_entry` returns. -/
def fresh_entry : Entry := { key := CharPtr.null, value := CharPtr.null }

theorem populated_nil : Populated [] := by
  intro e he; cases he

theorem populated_cons {e : Entry} {chain : List Entry} :
    Populated (e :: chain) ↔
      (∃ k v, e = Entry.mk (CharPtr.str k) (CharPtr.str v)) ∧ Populated chain := by
  unfold Populated
  constructor
  · intro h
    exact ⟨h e (List.mem_cons_self _ _), fun x hx => h x (List.mem_cons_of_mem _ hx)⟩
  · rintro ⟨h1, h2⟩ x hx
    rcases List.mem_cons.mp hx with rfl | hx
    · exact h1
    · exact h2 x hx

theorem locate_loop_eq (key : CStr) {chain : List Entry} (h : Populated chain) :
    hashmap_locate_entry_loop key chain = some (chain_find key chain) := by
  induction chain with
  | nil => rfl
  | cons e rest ih =>
    obtain ⟨⟨k, v, rfl⟩, hrest⟩ := populated_cons.mp h
    by_cases hk : k = key
    · simp [hashmap_locate_entry_loop, strcmp_eq_zero, chain_find, hk]
    · simp [hashmap_locate_entry_loop, strcmp_eq_zero, chain_find, hk, ih hrest]

theorem chain_find_some {key : CStr} {chain : List Entry} {e : Entry}
    (h : chain_find key chain = some e) : e ∈ chain ∧ e.key = CharPtr.str key := by
  induction chain with
  | nil => simp [chain_find] at h
  | cons x rest ih =>
    by_cases hx : x.key = CharPtr.str key
    · simp [chain_find, hx] at h
      subst h
      exact ⟨List.mem_cons_self _ _, hx⟩
    · simp [chain_find, hx] at h
      exact ⟨List.mem_cons_of_mem _ (ih h).1, (ih h).2⟩

theorem chain_find_eq_none {key : CStr} {chain : List Entry} :
    chain_find key chain = none ↔ CharPtr.str key ∉ chain.map Entry.key := by
  induction chain with
  | nil => simp [chain_find]
  | cons x rest ih =>
    by_cases hx : x.key = CharPtr.str key
    · simp [chain_find, hx]
    · have hx' : ¬ CharPtr.str key = x.key := fun h => hx h.symm
      simp [chain_find, hx, hx', ih]

theorem entry_for_key_loop_found (key value : CStr) {chain : List Entry} {e : Entry}
    (h : Populated chain) (hf : chain_find key chain = some e) (pos : Nat) :
    ∃ i, hashmap_entry_for_key_loop true key chain pos = some (chain, some (pos + i)) ∧
      chain[i]? = some e ∧
      chain.set i ({ e with value := CharPtr.str value } : Entry) = chain_put key value chain := by
  induction chain generalizing pos with
  | nil => simp [chain_find] at hf
  | cons x rest ih =>
    obtain ⟨⟨k, v, rfl⟩, hrest⟩ := populated_cons.mp h
    by_cases hk : k = key
    · subst hk
      simp [chain_find] at hf
      subst hf
      exact ⟨0, by simp [hashmap_entry_for_key_loop, strcmp_eq_zero, chain_put]⟩
    · simp [chain_find, hk] at hf
      obtain ⟨i, h1, h2, h3⟩ := ih hrest hf (pos + 1)
      refine ⟨i + 1, ?_, ?_, ?_⟩
      · simp [hashmap_entry_for_key_loop, strcmp_eq_zero, hk, h1]
        omega
      · simpa using h2
      · simp [chain_put, hk, h3]

theorem entry_for_key_loop_new (key value : CStr) {chain : List Entry}
    (h : Populated chain) (hf : chain_find key chain = none) (pos : Nat) :
    hashmap_entry_for_key_loop true key chain pos =
        some (chain ++ [Entry.mk CharPtr.null CharPtr.null],
          some (pos + chain.length)) ∧
      (chain ++ [Entry.mk CharPtr.null CharPtr.null]).set chain.length
        (Entry.mk (CharPtr.str key) (CharPtr.str value)) = chain_put key value chain := by
  induction chain generalizing pos with
  | nil => simp [hashmap_entry_for_key_loop, hashmap_create_entry, chain_put]
  | cons x rest ih =>
    obtain ⟨⟨k, v, rfl⟩, hrest⟩ := populated_cons.mp h
    by_cases hk : k = key
    · simp [chain_find, hk] at hf
    · simp [chain_find, hk] at hf
      obtain ⟨h1, h2⟩ := ih hrest hf (pos + 1)
      constructor
      · simp [hashmap_entry_for_key_loop, strcmp_eq_zero, hk, h1]
        omega
      · simpa [chain_put, hk] using h2

theorem remove_loop_eq (key : CStr) {chain : List Entry} (h : Populated chain) :
    hashmap_remove_loop key chain =
      some (if (chain_find key chain).isSome then some (chain_erase key chain) else none) := by
  induction chain with
  | nil => simp [hashmap_remove_loop, chain_find]
  | cons x rest ih =>
    obtain ⟨⟨k, v, rfl⟩, hrest⟩ := populated_cons.mp h
    by_cases hk : k = key
    · simp [hashmap_remove_loop, strcmp_eq_zero, chain_find, chain_erase, hk,
        hashmap_destroy_entry]
    · simp only [hashmap_remove_loop, strcmp_eq_zero, chain_find, chain_erase, ih hrest]
      by_cases hf : (chain_find key rest).isSome <;> simp [hk, hf]

theorem two_pow_pos32 : 0 < 2 ^ 32 := Nat.pos_pow_of_pos 32 (by decide)

theorem uint_dec_eq {n : Nat} (h : n < 2 ^ 32) : uint_dec n = (2 ^ 32 - 1 + n) % 2 ^ 32 := by
  unfold uint_dec
  split <;> omega

theorem uint_dec_lt {n : Nat} (h : n < 2 ^ 32) : uint_dec n < 2 ^ 32 := by
  unfold uint_dec
  split <;> omega

theorem dec_mod (M s n : Nat) :
    ((M - 1) * n + (M - 1 + s) % M) % M = ((M - 1) * (n + 1) + s) % M := by
  rw [Nat.add_mod, Nat.mod_mod, ← Nat.add_mod]
  congr 1
  ring

theorem clear_index_loop_eq {chain : List Entry} (h : Populated chain) (size : Nat)
    (hs : size < 2 ^ 32) :
    hashmap_clear_index_loop chain size =
      some (((2 ^ 32 - 1) * chain.length + size) % 2 ^ 32) := by
  induction chain generalizing size with
  | nil =>
    rw [hashmap_clear_index_loop, List.length_nil, Nat.mul_zero, Nat.zero_add,
      Nat.mod_eq_of_lt hs]
  | cons x rest ih =>
    obtain ⟨⟨k, v, rfl⟩, hrest⟩ := populated_cons.mp h
    have hd : hashmap_destroy_entry (Entry.mk (CharPtr.str k) (CharPtr.str v)) = some () := by
      simp [hashmap_destroy_entry]
    rw [hashmap_clear_index_loop, hd]
    show hashmap_clear_index_loop rest _ = _
    rw [ih hrest _ (uint_dec_lt hs), List.length_cons, uint_dec_eq hs, dec_mod]

theorem chain_find_put_self (key value : CStr) {chain : List Entry} (h : Populated chain) :
    chain_find key (chain_put key value chain) =
      some (Entry.mk (CharPtr.str key) (CharPtr.str value)) := by
  induction chain with
  | nil => simp [chain_put, chain_find]
  | cons x rest ih =>
    obtain ⟨⟨k, v, rfl⟩, hrest⟩ := populated_cons.mp h
    by_cases hk : k = key
    · simp [chain_put, chain_find, hk]
    · simp [chain_put, chain_find, hk, ih hrest]

theorem chain_find_put_other {key key' : CStr} (value : CStr) (hne : key' ≠ key)
    (chain : List Entry) :
    chain_find key' (chain_put key value chain) = chain_find key' chain := by
  have hne' : ¬ key = key' := fun h => hne h.symm
  induction chain with
  | nil => simp [chain_put, chain_find, hne']
  | cons x rest ih =>
    by_cases hx : x.key = CharPtr.str key
    · simp [chain_put, chain_find, hx, hne']
    · rw [chain_put, if_neg hx, chain_find, chain_find, ih]

theorem populated_put (key value : CStr) {chain : List Entry} (h : Populated chain) :
    Populated (chain_put key value chain) := by
  induction chain with
  | nil =>
    intro e he
    simp [chain_put] at he
    exact ⟨key, value, he⟩
  | cons x rest ih =>
    obtain ⟨⟨k, v, rfl⟩, hrest⟩ := populated_cons.mp h
    by_cases hk : k = key
    · simp only [chain_put, hk, if_true]
      exact populated_cons.mpr ⟨⟨key, value, rfl⟩, hrest⟩
    · have : ¬ CharPtr.str k = CharPtr.str key := fun h => hk (CharPtr.str.inj h)
      simp only [chain_put, this, if_false]
      exact populated_cons.mpr ⟨⟨k, v, rfl⟩, ih hrest⟩

theorem keys_put (key value : CStr) (chain : List Entry) :
    (chain_put key value chain).map Entry.key =
      if (chain_find key chain).isSome then chain.map Entry.key
      else chain.map Entry.key ++ [CharPtr.str key] := by
  induction chain with
  | nil => simp [chain_put, chain_find]
  | cons x rest ih =>
    by_cases hx : x.key = CharPtr.str key
    · simp [chain_put, chain_find, hx]
    · simp only [chain_put, chain_find, hx, if_false, List.map_cons, ih]
      split <;> simp

theorem nodup_put (key value : CStr) {chain : List Entry}
    (h : (chain.map Entry.key).Nodup) : ((chain_put key value chain).map Entry.key).Nodup := by
  rw [keys_put]
  split
  · exact h
  · rename_i hf
    have hnone : chain_find key chain = none := by
      cases hc : chain_find key chain with
      | none => rfl
      | some e => simp [hc] at hf
    have hnot := chain_find_eq_none.mp hnone
    exact List.Nodup.append h (List.nodup_singleton _) (by
      intro a ha hb
      simp at hb
      subst hb
      exact hnot ha)

theorem length_put (key value : CStr) (chain : List Entry) :
    (chain_put key value chain).length =
      if (chain_find key chain).isSome then chain.length else chain.length + 1 := by
  have h := congrArg List.length (keys_put key value chain)
  rw [List.length_map] at h
  rw [h]
  split <;> simp

theorem chain_find_erase_self (key : CStr) {chain : List Entry}
    (h : (chain.map Entry.key).Nodup) : chain_find key (chain_erase key chain) = none := by
  induction chain with
  | nil => simp [chain_erase, chain_find]
  | cons x rest ih =>
    rw [List.map_cons, List.nodup_cons] at h
    by_cases hx : x.key = CharPtr.str key
    · simp only [chain_erase, hx, if_true]
      rw [chain_find_eq_none, ← hx]
      exact h.1
    · simp [chain_erase, chain_find, hx, ih h.2]

theorem chain_find_erase_other {key key' : CStr} (hne : key' ≠ key) (chain : List Entry) :
    chain_find key' (chain_erase key chain) = chain_find key' chain := by
  induction chain with
  | nil => simp [chain_erase, chain_find]
  | cons x rest ih =>
    by_cases hx : x.key = CharPtr.str key
    · have hx' : ¬ x.key = CharPtr.str key' := by
        rw [hx]
        intro h
        exact hne (CharPtr.str.inj h).symm
      rw [chain_erase, if_pos hx, chain_find, if_neg hx']
    · rw [chain_erase, if_neg hx, chain_find, chain_find, ih]

theorem erase_sublist (key : CStr) (chain : List Entry) :
    List.Sublist (chain_erase key chain) chain := by
  induction chain with
  | nil => simp [chain_erase]
  | cons x rest ih =>
    by_cases hx : x.key = CharPtr.str key
    · simp [chain_erase, hx]
    · simp only [chain_erase, hx, if_false]
      exact ih.cons₂ x

theorem populated_erase (key : CStr) {chain : List Entry} (h : Populated chain) :
    Populated (chain_erase key chain) :=
  fun e he => h e ((erase_sublist key chain).subset he)

theorem nodup_erase (key : CStr) {chain : List Entry} (h : (chain.map Entry.key).Nodup) :
    ((chain_erase key chain).map Entry.key).Nodup :=
  List.Nodup.sublist ((erase_sublist key chain).map Entry.key) h

theorem length_erase {key : CStr} {chain : List Entry}
    (h : (chain_find key chain).isSome) :
    (chain_erase key chain).length + 1 = chain.length := by
  induction chain with
  | nil => simp [chain_find] at h
  | cons x rest ih =>
    by_cases hx : x.key = CharPtr.str key
    · simp [chain_erase, hx]
    · simp only [chain_find, hx, if_false] at h
      simp [chain_erase, hx, ih h]

theorem index_lt {map : HashMap} (h : WF map) (sg : Bool) (key : CStr) :
    hashmap_hash sg key % map.capacity < map.entries.length := by
  rw [h.len]
  exact Nat.mod_lt _ h.cap_pos

theorem index_eq {map : HashMap} (h : WF map) (sg : Bool) (key : CStr) :
    hashmap_index sg map key = some (hashmap_hash sg key % map.capacity) := by
  have hlt : hashmap_hash sg key % map.capacity < 2 ^ 32 :=
    Nat.lt_trans (Nat.mod_lt _ h.cap_pos) h.cap_lt
  rw [hashmap_index, if_neg (Nat.pos_iff_ne_zero.mp h.cap_pos), Nat.mod_eq_of_lt hlt]

theorem bucket_get {map : HashMap} (h : WF map) (sg : Bool) (key : CStr) :
    map.entries[hashmap_hash sg key % map.capacity]? = some (bucket_of sg map key) := by
  have hlt := index_lt h sg key
  simp [bucket_of, List.getElem?_eq_getElem hlt]

theorem bucket_mem {map : HashMap} (h : WF map) (sg : Bool) (key : CStr) :
    bucket_of sg map key ∈ map.entries :=
  List.getElem?_mem (bucket_get h sg key)

theorem bucket_populated {map : HashMap} (h : WF map) (sg : Bool) (key : CStr) :
    Populated (bucket_of sg map key) :=
  (h.chains _ (bucket_mem h sg key)).1

theorem bucket_nodup {map : HashMap} (h : WF map) (sg : Bool) (key : CStr) :
    ((bucket_of sg map key).map Entry.key).Nodup :=
  (h.chains _ (bucket_mem h sg key)).2

theorem locate_eq {map : HashMap} (h : WF map) (sg : Bool) (key : CStr) :
    hashmap_locate_entry sg map key = some (chain_find key (bucket_of sg map key)) := by
  simp only [hashmap_locate_entry, index_eq h, bucket_get h]
  exact locate_loop_eq key (bucket_populated h sg key)

theorem get_eq {map : HashMap} (h : WF map) (sg : Bool) (key : CStr) (result : CharPtr) :
    hashmap_get sg map key result =
      some (match chain_find key (bucket_of sg map key) with
        | none => (0, result)
        | some entry => (1, entry.value)) := by
  simp only [hashmap_get, locate_eq h]
  cases chain_find key (bucket_of sg map key) <;> rfl

theorem contains_eq {map : HashMap} (h : WF map) (sg : Bool) (key : CStr) :
    hashmap_contains sg map key =
      some (if (chain_find key (bucket_of sg map key)).isSome then 1 else 0) := by
  simp only [hashmap_contains, locate_eq h]
  cases chain_find key (bucket_of sg map key) <;> rfl

theorem put_eq {map : HashMap} (h : WF map) (sg : Bool) (key value : CStr) :
    hashmap_put sg Allocs.ok map key value = some (put_model sg map key value, 1) := by
  have hlt := index_lt h sg key
  have hpop := bucket_populated h sg key
  cases hf : chain_find key (bucket_of sg map key) with
  | none =>
    obtain ⟨h1, h2⟩ := entry_for_key_loop_new key value hpop hf 0
    simp only [hashmap_put, hashmap_entry_for_key, index_eq h, bucket_get h, Allocs.ok, h1,
      Option.map_some', entry_at, set_entry_at, List.getElem?_set_self hlt, Nat.zero_add]
    simp [hashmap_populate_entry, put_model, hf, h2]
  | some e =>
    obtain ⟨i, h1, h2, h3⟩ := entry_for_key_loop_found key value hpop hf 0
    obtain ⟨k, v, rfl⟩ := hpop e (chain_find_some hf).1
    simp only [hashmap_put, hashmap_entry_for_key, index_eq h, bucket_get h, Allocs.ok, h1,
      Option.map_some', entry_at, set_entry_at, List.getElem?_set_self hlt, Nat.zero_add, h2]
    simp [hashmap_replace_entry_value, put_model, hf, h3]

theorem remove_eq {map : HashMap} (h : WF map) (sg : Bool) (key : CStr) :
    hashmap_remove sg map key =
      some (if (chain_find key (bucket_of sg map key)).isSome
        then (remove_model sg map key, 1) else (map, 0)) := by
  simp only [hashmap_remove, index_eq h, bucket_get h,
    remove_loop_eq key (bucket_populated h sg key)]
  cases hf : chain_find key (bucket_of sg map key) <;> simp [remove_model]

theorem clear_index_eq {map : HashMap} (h : WF map) {index : Nat}
    (hi : index < map.capacity) :
    hashmap_clear_index map index = some (clear_index_model map index) := by
  have hlt : index < map.entries.length := by rw [h.len]; exact hi
  have hget : map.entries[index]? = some map.entries[index] := List.getElem?_eq_getElem hlt
  have hpop : Populated map.entries[index] := (h.chains _ (List.getElem?_mem hget)).1
  have hs : map.size < 2 ^ 32 := by
    rw [h.size_eq]
    exact Nat.mod_lt _ two_pow_pos32
  simp only [hashmap_clear_index, hget, clear_index_loop_eq hpop _ hs, clear_index_model,
    Option.getD_some]

theorem sum_length_set {l : List (List Entry)} {i : Nat} {c : List Entry} (c' : List Entry)
    (h : l[i]? = some c) :
    ((l.set i c').map List.length).sum + c.length = (l.map List.length).sum + c'.length := by
  induction l generalizing i with
  | nil => simp at h
  | cons x rest ih =>
    cases i with
    | zero =>
      simp at h
      subst h
      simp
      omega
    | succ j =>
      simp at h
      have := ih h
      simp only [List.set_cons_succ, List.map_cons, List.sum_cons]
      omega

theorem entry_count_set {map : HashMap} {i : Nat} {c : List Entry} (c' : List Entry)
    (size : Nat) (h : map.entries[i]? = some c) :
    entry_count { size := size, capacity := map.capacity, entries := map.entries.set i c' }
      + c.length = entry_count map + c'.length :=
  sum_length_set c' h

theorem mod_add_one (M a : Nat) : (a % M + 1) % M = (a + 1) % M := by
  rw [Nat.add_mod, Nat.mod_mod, ← Nat.add_mod]

theorem mod_sub_many (M a n : Nat) (hM : 0 < M) :
    ((M - 1) * n + (a + n) % M) % M = a % M := by
  rw [Nat.add_mod, Nat.mod_mod, ← Nat.add_mod]
  have : (M - 1) * n + (a + n) = a + n * M := by
    obtain ⟨m, rfl⟩ : ∃ m, M = m + 1 := ⟨M - 1, by omega⟩
    simp
    ring
  rw [this, Nat.add_mul_mod_self_right]

theorem mod_sub_one (M a : Nat) (hM : 0 < M) : (M - 1 + (a + 1) % M) % M = a % M := by
  have := mod_sub_many M a 1 hM
  rwa [Nat.mul_one] at this

theorem wf_create {capacity : Nat} {map : HashMap} (hpos : 0 < capacity)
    (hlt : capacity < 2 ^ 32) (h : hashmap_create true true capacity = some map) :
    WF map := by
  simp [hashmap_create] at h
  subst h
  refine ⟨hpos, hlt, by simp, ?_, ?_⟩
  · intro chain hc
    obtain ⟨_, rfl⟩ := List.mem_replicate.mp hc
    exact ⟨populated_nil, List.nodup_nil⟩
  · show 0 = (List.map List.length (List.replicate capacity [])).sum % 2 ^ 32
    have : (List.map List.length (List.replicate capacity ([] : List Entry))).sum = 0 := by
      simp
    rw [this, Nat.zero_mod]

theorem wf_put_model {map : HashMap} (h : WF map) (sg : Bool) (key value : CStr) :
    WF (put_model sg map key value) := by
  refine ⟨h.cap_pos, h.cap_lt, ?_, ?_, ?_⟩
  · show (map.entries.set _ _).length = map.capacity
    rw [List.length_set, h.len]
  · intro chain hc
    rcases List.mem_or_eq_of_mem_set hc with hc | rfl
    · exact h.chains chain hc
    · exact ⟨populated_put key value (bucket_populated h sg key),
        nodup_put key value (bucket_nodup h sg key)⟩
  · have hcount := entry_count_set (chain_put key value (bucket_of sg map key))
      (put_model sg map key value).size (bucket_get h sg key)
    rw [length_put] at hcount
    have hsz := h.size_eq
    show (if (chain_find key (bucket_of sg map key)).isSome then map.size
      else uint_inc map.size) = entry_count (put_model sg map key value) % 2 ^ 32
    change entry_count (put_model sg map key value) + _ = _ at hcount
    split
    · rename_i hf
      rw [if_pos hf] at hcount
      rw [hsz]
      congr 1
      omega
    · rename_i hf
      rw [if_neg hf] at hcount
      rw [hsz, uint_inc, mod_add_one]
      congr 1
      omega

theorem wf_remove_model {map : HashMap} (h : WF map) (sg : Bool) {key : CStr}
    (hf : (chain_find key (bucket_of sg map key)).isSome) :
    WF (remove_model sg map key) := by
  refine ⟨h.cap_pos, h.cap_lt, ?_, ?_, ?_⟩
  · show (map.entries.set _ _).length = map.capacity
    rw [List.length_set, h.len]
  · intro chain hc
    rcases List.mem_or_eq_of_mem_set hc with hc | rfl
    · exact h.chains chain hc
    · exact ⟨populated_erase key (bucket_populated h sg key),
        nodup_erase key (bucket_nodup h sg key)⟩
  · have hcount := entry_count_set (chain_erase key (bucket_of sg map key))
      (remove_model sg map key).size (bucket_get h sg key)
    change entry_count (remove_model sg map key) + _ = _ at hcount
    have hlen := length_erase hf
    show uint_dec map.size = entry_count (remove_model sg map key) % 2 ^ 32
    have hc : entry_count map = entry_count (remove_model sg map key) + 1 := by omega
    have hs : map.size < 2 ^ 32 := by
      rw [h.size_eq]
      exact Nat.mod_lt _ two_pow_pos32
    rw [uint_dec_eq hs, h.size_eq, hc, mod_sub_one _ _ two_pow_pos32]

theorem wf_clear_index_model {map : HashMap} (h : WF map) {index : Nat}
    (hi : index < map.capacity) : WF (clear_index_model map index) := by
  have hlt : index < map.entries.length := by rw [h.len]; exact hi
  have hget : map.entries[index]? = some map.entries[index] := List.getElem?_eq_getElem hlt
  refine ⟨h.cap_pos, h.cap_lt, ?_, ?_, ?_⟩
  · show (map.entries.set _ _).length = map.capacity
    rw [List.length_set, h.len]
  · intro chain hc
    rcases List.mem_or_eq_of_mem_set hc with hc | rfl
    · exact h.chains chain hc
    · exact ⟨populated_nil, List.nodup_nil⟩
  · have hcount := entry_count_set [] (clear_index_model map index).size hget
    change entry_count (clear_index_model map index) + _ = _ at hcount
    show ((2 ^ 32 - 1) * ((map.entries[index]?).getD []).length + map.size) % 2 ^ 32
      = entry_count (clear_index_model map index) % 2 ^ 32
    have hc : entry_count map =
        entry_count (clear_index_model map index) + map.entries[index].length := by
      simp only [List.length_nil] at hcount
      omega
    rw [hget, Option.getD_some, h.size_eq, hc, mod_sub_many _ _ _ two_pow_pos32]

theorem bucket_put_model {map : HashMap} (h : WF map) (sg : Bool) (key value key' : CStr) :
    bucket_of sg (put_model sg map key value) key' =
      if hashmap_hash sg key' % map.capacity = hashmap_hash sg key % map.capacity
      then chain_put key value (bucket_of sg map key) else bucket_of sg map key' := by
  have hlt := index_lt h sg key
  show ((map.entries.set _ _)[hashmap_hash sg key' % map.capacity]?).getD [] = _
  split
  · rename_i he
    rw [he, List.getElem?_set_self hlt, Option.getD_some]
  · rename_i he
    rw [List.getElem?_set_ne (fun e => he e.symm)]
    rfl

theorem bucket_remove_model {map : HashMap} (h : WF map) (sg : Bool) (key key' : CStr) :
    bucket_of sg (remove_model sg map key) key' =
      if hashmap_hash sg key' % map.capacity = hashmap_hash sg key % map.capacity
      then chain_erase key (bucket_of sg map key) else bucket_of sg map key' := by
  have hlt := index_lt h sg key
  show ((map.entries.set _ _)[hashmap_hash sg key' % map.capacity]?).getD [] = _
  split
  · rename_i he
    rw [he, List.getElem?_set_self hlt, Option.getD_some]
  · rename_i he
    rw [List.getElem?_set_ne (fun e => he e.symm)]
    rfl

theorem bucket_clear_index_model {map : HashMap} (h : WF map) (sg : Bool) {index : Nat}
    (hi : index < map.capacity) (key : CStr) :
    bucket_of sg (clear_index_model map index) key =
      if hashmap_hash sg key % map.capacity = index then [] else bucket_of sg map key := by
  have hlt : index < map.entries.length := by rw [h.len]; exact hi
  show ((map.entries.set _ _)[hashmap_hash sg key % map.capacity]?).getD [] = _
  split
  · rename_i he
    rw [he, List.getElem?_set_self hlt, Option.getD_some]
  · rename_i he
    rw [List.getElem?_set_ne (fun e => he e.symm)]
    rfl

theorem bucket_same {map : HashMap} (sg : Bool) {key key' : CStr}
    (he : hashmap_hash sg key' % map.capacity = hashmap_hash sg key % map.capacity) :
    bucket_of sg map key' = bucket_of sg map key := by
  unfold bucket_of
  rw [he]

theorem find_put_self {map : HashMap} (h : WF map) (sg : Bool) (key value : CStr) :
    chain_find key (bucket_of sg (put_model sg map key value) key) =
      some (Entry.mk (CharPtr.str key) (CharPtr.str value)) := by
  rw [bucket_put_model h, if_pos rfl]
  exact chain_find_put_self key value (bucket_populated h sg key)

theorem find_put_other {map : HashMap} (h : WF map) (sg : Bool) {key key' : CStr}
    (value : CStr) (hne : key' ≠ key) :
    chain_find key' (bucket_of sg (put_model sg map key value) key') =
      chain_find key' (bucket_of sg map key') := by
  rw [bucket_put_model h]
  split
  · rename_i he
    rw [chain_find_put_other value hne, bucket_same sg he]
  · rfl

theorem find_remove_self {map : HashMap} (h : WF map) (sg : Bool) (key : CStr) :
    chain_find key (bucket_of sg (remove_model sg map key) key) = none := by
  rw [bucket_remove_model h, if_pos rfl]
  exact chain_find_erase_self key (bucket_nodup h sg key)

theorem find_remove_other {map : HashMap} (h : WF map) (sg : Bool) {key key' : CStr}
    (hne : key' ≠ key) :
    chain_find key' (bucket_of sg (remove_model sg map key) key') =
      chain_find key' (bucket_of sg map key') := by
  rw [bucket_remove_model h]
  split
  · rename_i he
    rw [chain_find_erase_other hne, bucket_same sg he]
  · rfl

theorem clear_loop_spec (is : List Nat) {map : HashMap} (h : WF map)
    (his : ∀ i ∈ is, i < map.capacity) :
    ∃ map', hashmap_clear_loop is map = some map' ∧ WF map' ∧
      map'.capacity = map.capacity ∧ (∀ i ∈ is, map'.entries[i]? = some []) ∧
      (∀ j, j ∉ is → map'.entries[j]? = map.entries[j]?) := by
  induction is generalizing map with
  | nil => exact ⟨map, rfl, h, rfl, fun i hi => (by cases hi), fun _ _ => rfl⟩
  | cons i rest ih =>
    have hi : i < map.capacity := his i (List.mem_cons_self _ _)
    have hlt : i < map.entries.length := by rw [h.len]; exact hi
    have hwf1 := wf_clear_index_model h hi
    have hrest : ∀ j ∈ rest, j < (clear_index_model map i).capacity :=
      fun j hj => his j (List.mem_cons_of_mem _ hj)
    obtain ⟨map', h1, h2, h3, h4, h5⟩ := ih hwf1 hrest
    refine ⟨map', ?_, h2, h3, ?_, ?_⟩
    · rw [hashmap_clear_loop, clear_index_eq h hi]
      exact h1
    · intro j hj
      by_cases hjr : j ∈ rest
      · exact h4 j hjr
      · rcases List.mem_cons.mp hj with rfl | hj'
        · rw [h5 j hjr]
          exact List.getElem?_set_self hlt
        · exact absurd hj' hjr
    · intro j hj
      have hji : i ≠ j := fun e => hj (e ▸ List.mem_cons_self _ _)
      have hjr : j ∉ rest := fun e => hj (List.mem_cons_of_mem _ e)
      rw [h5 j hjr]
      exact List.getElem?_set_ne hji

theorem clear_spec {map : HashMap} (h : WF map) :
    ∃ map', hashmap_clear map = some map' ∧ WF map' ∧ map'.size = 0 ∧
      map'.capacity = map.capacity ∧ map'.entries = List.replicate map.capacity [] := by
  obtain ⟨map', h1, h2, h3, h4, _⟩ :=
    clear_loop_spec (List.range map.capacity) h (fun i hi => List.mem_range.mp hi)
  have hent : map'.entries = List.replicate map.capacity [] := by
    apply List.ext_getElem?
    intro n
    rw [List.getElem?_replicate]
    split
    · rename_i hn
      exact h4 n (List.mem_range.mpr hn)
    · rename_i hn
      apply List.getElem?_eq_none
      rw [h2.len, h3]
      omega
  refine ⟨map', h1, h2, ?_, h3, hent⟩
  have hcount : entry_count map' = 0 := by
    unfold entry_count
    rw [hent]
    simp
  rw [h2.size_eq, hcount, Nat.zero_mod]

theorem reachable_wf {sg : Bool} {map : HashMap} (h : Reachable sg map) : WF map := by
  induction h with
  | create capacity map hpos hlt h => exact wf_create hpos hlt h
  | put map map' key value ret _ h ih =>
    rw [put_eq ih] at h
    cases h
    exact wf_put_model ih sg key value
  | remove map map' key ret _ h ih =>
    rw [remove_eq ih] at h
    by_cases hf : (chain_find key (bucket_of sg map key)).isSome
    · rw [if_pos hf] at h
      cases h
      exact wf_remove_model ih sg hf
    · rw [if_neg hf] at h
      cases h
      exact ih
  | clear map map' _ h ih =>
    obtain ⟨m, h1, h2, _⟩ := clear_spec ih
    rw [h1] at h
    cases h
    exact h2
  | clear_index map map' index _ h ih =>
    by_cases hi : index < map.capacity
    · rw [clear_index_eq ih hi] at h
      cases h
      exact wf_clear_index_model ih hi
    · have hnone : map.entries[index]? = none :=
        List.getElem?_eq_none (by rw [ih.len]; omega)
      simp [hashmap_clear_index, hnone] at h

theorem reachable_put_model {sg : Bool} {map : HashMap} (h : Reachable sg map)
    (key value : CStr) : Reachable sg (put_model sg map key value) :=
  Reachable.put map _ key value 1 h (put_eq (reachable_wf h) sg key value)

theorem contains_one_iff {map : HashMap} (h : WF map) (sg : Bool) (key : CStr) :
    hashmap_contains sg map key = some 1 ↔
      (chain_find key (bucket_of sg map key)).isSome = true := by
  rw [contains_eq h]
  by_cases hf : (chain_find key (bucket_of sg map key)).isSome = true <;> simp [hf]

theorem contains_zero_iff {map : HashMap} (h : WF map) (sg : Bool) (key : CStr) :
    hashmap_contains sg map key = some 0 ↔
      chain_find key (bucket_of sg map key) = none := by
  rw [contains_eq h]
  cases chain_find key (bucket_of sg map key) <;> simp

theorem get_put_self {map : HashMap} (h : WF map) (sg : Bool) (key value : CStr)
    (result : CharPtr) :
    hashmap_get sg (put_model sg map key value) key result = some (1, CharPtr.str value) := by
  rw [get_eq (wf_put_model h sg key value), find_put_self h]

/-- C1: on every map reachable from `hashmap_create` with a positive capacity (all
allocations succeeding), `hashmap_put(map, k, v)` returns 1 and a following
`hashmap_get(map, k, &result)` returns 1 with `result` holding `v`, whether or not
`k` was present before. -/
theorem put_then_get (sg : Bool) (map : HashMap) (key value : CStr) (result : CharPtr)
    (h : Reachable sg map) :
    ∃ map', hashmap_put sg Allocs.ok map key value = some (map', 1) ∧
      hashmap_get sg map' key result = some (1, CharPtr.str value) :=
  ⟨put_model sg map key value, put_eq (reachable_wf h) sg key value,
    get_put_self (reachable_wf h) sg key value result⟩

/-- Witness of C1: capacity 5, `put("foo", "bar")` then `get("foo")` gives
`(1, "bar")`. -/
theorem put_then_get_witness :
    Reachable true map5 ∧
      ∃ map', hashmap_put true Allocs.ok map5 s_foo s_bar = some (map', 1) ∧
        hashmap_get true map' s_foo CharPtr.null = some (1, CharPtr.str s_bar) :=
  ⟨Reachable.create 5 map5 (by decide) (by decide) rfl,
    put_then_get true map5 s_foo s_bar CharPtr.null
      (Reachable.create 5 map5 (by decide) (by decide) rfl)⟩

theorem count_put_model {map : HashMap} (h : WF map) (sg : Bool) (key value : CStr) :
    entry_count (put_model sg map key value) =
      entry_count map + if (chain_find key (bucket_of sg map key)).isSome then 0 else 1 := by
  have hcount := entry_count_set (chain_put key value (bucket_of sg map key))
    (put_model sg map key value).size (bucket_get h sg key)
  rw [length_put] at hcount
  change entry_count (put_model sg map key value) + _ = _ at hcount
  split <;> rename_i hf
  · rw [if_pos hf] at hcount
    omega
  · rw [if_neg hf] at hcount
    omega

theorem put_all_append (sg : Bool) (map : HashMap) (l1 l2 : List (CStr × CStr)) :
    put_all sg map (l1 ++ l2) = (put_all sg map l1).bind (fun m => put_all sg m l2) := by
  induction l1 generalizing map with
  | nil => rfl
  | cons kv rest ih =>
    simp only [List.cons_append, put_all]
    cases hashmap_put sg Allocs.ok map kv.1 kv.2 with
    | none => rfl
    | some r => exact ih r.1

theorem put_all_spec (sg : Bool) {map0 : HashMap} (h0 : Reachable sg map0)
    (hempty : ∀ k, chain_find k (bucket_of sg map0 k) = none)
    (hcount : entry_count map0 = 0) (kvs : List (CStr × CStr)) :
    ∃ m, put_all sg map0 kvs = some m ∧ Reachable sg m ∧ m.capacity = map0.capacity ∧
      (∀ k, (chain_find k (bucket_of sg m k)).isSome = true ↔ k ∈ kvs.map Prod.fst) ∧
      entry_count m = (kvs.map Prod.fst).toFinset.card := by
  induction kvs using List.reverseRecOn with
  | nil =>
    refine ⟨map0, rfl, h0, rfl, ?_, ?_⟩
    · intro k
      simp [hempty k]
    · simpa using hcount
  | append_singleton kvs kv ih =>
    obtain ⟨m, h1, h2, h3, h4, h5⟩ := ih
    have hwf := reachable_wf h2
    refine ⟨put_model sg m kv.1 kv.2, ?_, reachable_put_model h2 kv.1 kv.2, h3, ?_, ?_⟩
    · rw [put_all_append, h1]
      simp only [Option.bind, put_all, put_eq hwf]
    · intro k
      by_cases hk : k = kv.1
      · subst hk
        rw [find_put_self hwf]
        simp
      · rw [find_put_other hwf sg kv.2 hk, h4 k]
        simp [hk]
    · rw [count_put_model hwf, h5, List.map_append, List.toFinset_append]
      simp only [List.map_cons, List.map_nil, List.toFinset_cons, List.toFinset_nil]
      by_cases hf : (chain_find kv.1 (bucket_of sg m kv.1)).isSome = true
      · have hmem : kv.1 ∈ (kvs.map Prod.fst).toFinset := List.mem_toFinset.mpr ((h4 _).mp hf)
        rw [if_pos hf, Nat.add_zero]
        congr 1
        ext x
        simp only [Finset.mem_union, Finset.mem_insert, Finset.not_mem_empty, or_false]
        constructor
        · intro hx
          exact Or.inl hx
        · rintro (hx | rfl)
          · exact hx
          · exact hmem
      · have hmem : kv.1 ∉ (kvs.map Prod.fst).toFinset :=
          fun hm => hf ((h4 _).mpr (List.mem_toFinset.mp hm))
        rw [if_neg hf, ← Finset.card_insert_of_not_mem hmem]
        congr 1
        ext x
        simp only [Finset.mem_union, Finset.mem_insert, Finset.not_mem_empty, or_false]
        exact or_comm

theorem nth_key_inj {a b : Nat} (h : nth_key a = nth_key b) : a = b := by
  have h1 : (Nat.digits 255 a).map (fun d => d + 1) = (Nat.digits 255 b).map (fun d => d + 1) :=
    congrArg CStr.bytes h
  have h2 : Function.Injective (fun d : Nat => d + 1) := fun x y hxy => Nat.succ.inj hxy
  exact Nat.digits.injective 255 (List.map_injective_iff.mpr h2 h1)

theorem nth_keys_eq (n : Nat) :
    (nth_pairs n).map Prod.fst = (List.range n).map nth_key := by
  simp [nth_pairs, Function.comp_def]

theorem nth_keys_nodup (n : Nat) : ((nth_pairs n).map Prod.fst).Nodup := by
  rw [nth_keys_eq]
  exact List.Nodup.map (fun a b h => nth_key_inj h) (List.nodup_range n)

theorem nth_keys_mem (n i : Nat) :
    nth_key i ∈ (nth_pairs n).map Prod.fst ↔ i < n := by
  rw [nth_keys_eq, List.mem_map]
  constructor
  · rintro ⟨j, hj, he⟩
    rw [← nth_key_inj he]
    exact List.mem_range.mp hj
  · intro hi
    exact ⟨i, List.mem_range.mpr hi, rfl⟩

theorem reachable_map1 (sg : Bool) : Reachable sg map1 :=
  Reachable.create 1 map1 (by decide) (by decide) rfl

theorem nth_map_spec (sg : Bool) (n : Nat) :
    ∃ m, nth_map sg n = some m ∧ Reachable sg m ∧ m.capacity = 1 ∧
      entry_count m = n ∧ m.size = n % 2 ^ 32 ∧
      (∀ i, (chain_find (nth_key i) (bucket_of sg m (nth_key i))).isSome = true ↔ i < n) := by
  obtain ⟨m, h1, h2, h3, h4, h5⟩ := put_all_spec sg (reachable_map1 sg)
    (fun k => by simp [bucket_of, map1, Nat.mod_one, chain_find]) rfl (nth_pairs n)
  have hc : entry_count m = n := by
    rw [h5, List.toFinset_card_of_nodup (nth_keys_nodup n), List.length_map]
    simp [nth_pairs]
  refine ⟨m, h1, h2, h3, hc, ?_, ?_⟩
  · rw [(reachable_wf h2).size_eq, hc]
  · intro i
    rw [h4, nth_keys_mem]

theorem size_put_model {map : HashMap} (sg : Bool) (key value : CStr) :
    (put_model sg map key value).size =
      if (chain_find key (bucket_of sg map key)).isSome then map.size
      else uint_inc map.size := rfl

theorem uint_inc_of_lt {n : Nat} (h : n < 2 ^ 32 - 1) : uint_inc n = n + 1 := by
  unfold uint_inc
  omega

/-- C2, as amended: on every reachable map (all allocations succeeding),
`hashmap_put(k, v1)` followed by `hashmap_put(k, v2)` leaves `map->size` equal to its
value after the first put and `hashmap_get(k)` then gives `v2`; `hashmap_put` leaves
the size unchanged when `k` is present, and when `k` is absent the size goes to
`(size + 1) mod 2 ^ 32`, which is `size + 1` whenever `size < 2 ^ 32 - 1`. -/
theorem put_replace_size (sg : Bool) (map : HashMap) (key v1 v2 : CStr) (result : CharPtr)
    (h : Reachable sg map) :
    ∃ m1 m2, hashmap_put sg Allocs.ok map key v1 = some (m1, 1) ∧
      hashmap_put sg Allocs.ok m1 key v2 = some (m2, 1) ∧
      m2.size = m1.size ∧
      hashmap_get sg m2 key result = some (1, CharPtr.str v2) ∧
      (hashmap_contains sg map key = some 1 → m1.size = map.size) ∧
      (hashmap_contains sg map key = some 0 →
        m1.size = (map.size + 1) % 2 ^ 32 ∧
        (map.size < 2 ^ 32 - 1 → m1.size = map.size + 1)) := by
  have hwf := reachable_wf h
  have hwf1 := wf_put_model hwf sg key v1
  refine ⟨put_model sg map key v1, put_model sg (put_model sg map key v1) key v2,
    put_eq hwf sg key v1, put_eq hwf1 sg key v2, ?_, get_put_self hwf1 sg key v2 result,
    ?_, ?_⟩
  · rw [size_put_model sg key v2, find_put_self hwf]
    rfl
  · intro hc
    rw [size_put_model, if_pos ((contains_one_iff hwf sg key).mp hc)]
  · intro hc
    have hn := (contains_zero_iff hwf sg key).mp hc
    have hs : (put_model sg map key v1).size = uint_inc map.size := by
      rw [size_put_model, hn]
      rfl
    exact ⟨hs, fun hlt => by rw [hs, uint_inc_of_lt hlt]⟩

/-- Witness of C2: capacity 5, `put("foo", "bar")` gives size 1, `put("foo", "baz")`
keeps size 1 and `get("foo")` gives `"baz"`. -/
theorem put_replace_size_witness :
    Reachable true map5 ∧
      (∃ m1 m2, hashmap_put true Allocs.ok map5 s_foo s_bar = some (m1, 1) ∧
        hashmap_put true Allocs.ok m1 s_foo s_baz = some (m2, 1) ∧
        m2.size = m1.size ∧
        hashmap_get true m2 s_foo CharPtr.null = some (1, CharPtr.str s_baz) ∧
        (hashmap_contains true map5 s_foo = some 1 → m1.size = map5.size) ∧
        (hashmap_contains true map5 s_foo = some 0 →
          m1.size = (map5.size + 1) % 2 ^ 32 ∧
          (map5.size < 2 ^ 32 - 1 → m1.size = map5.size + 1))) ∧
      (hashmap_put true Allocs.ok map5 s_foo s_bar).map (fun r => r.1.size) = some 1 ∧
      hashmap_contains true map5 s_foo = some 0 :=
  ⟨Reachable.create 5 map5 (by decide) (by decide) rfl,
    put_replace_size true map5 s_foo s_bar s_baz CharPtr.null
      (Reachable.create 5 map5 (by decide) (by decide) rfl),
    by decide, by decide⟩

/-- Counterexample to C2 as stated: the map holding the first `2 ^ 32 - 1` keys
of the enumeration `nth_key` in one bucket is reachable and has size `2 ^ 32 - 1`; it
does not contain the next key of the enumeration, and putting that key returns 1 and
leaves size 0, not `2 ^ 32`. -/
theorem put_absent_size_wraps :
    ∃ map map', nth_map true (2 ^ 32 - 1) = some map ∧ Reachable true map ∧
      hashmap_contains true map (nth_key (2 ^ 32 - 1)) = some 0 ∧
      hashmap_put true Allocs.ok map (nth_key (2 ^ 32 - 1)) s_a = some (map', 1) ∧
      map.size = 2 ^ 32 - 1 ∧ map'.size = 0 ∧ map'.size ≠ map.size + 1 := by
  obtain ⟨m, h1, h2, _, _, h5, h6⟩ := nth_map_spec true (2 ^ 32 - 1)
  have hwf := reachable_wf h2
  have hsz : m.size = 2 ^ 32 - 1 := by
    rw [h5]
    norm_num
  have hnot : chain_find (nth_key (2 ^ 32 - 1)) (bucket_of true m (nth_key (2 ^ 32 - 1)))
      = none := by
    have := (h6 (2 ^ 32 - 1)).not.mpr (Nat.lt_irrefl _)
    cases hc : chain_find (nth_key (2 ^ 32 - 1)) (bucket_of true m (nth_key (2 ^ 32 - 1)))
    · rfl
    · rw [hc] at this
      exact absurd rfl this
  have hs' : (put_model true m (nth_key (2 ^ 32 - 1)) s_a).size = 0 := by
    rw [size_put_model, hnot, hsz]
    rfl
  refine ⟨m, put_model true m (nth_key (2 ^ 32 - 1)) s_a, h1, h2,
    (contains_zero_iff hwf true _).mpr hnot, put_eq hwf true _ s_a, hsz, hs', ?_⟩
  rw [hs', hsz]
  norm_num

theorem create_eq (capacity : Nat) :
    hashmap_create true true capacity =
      some { size := 0, capacity := capacity, entries := List.replicate capacity [] } := rfl

theorem create_bucket_empty (sg : Bool) (capacity : Nat) (key : CStr) :
    bucket_of sg { size := 0, capacity := capacity, entries := List.replicate capacity [] }
      key = [] := by
  unfold bucket_of
  rw [List.getElem?_replicate]
  split <;> rfl

theorem create_count (capacity : Nat) :
    entry_count { size := 0, capacity := capacity, entries := List.replicate capacity [] }
      = 0 := by
  simp [entry_count]

/-- C3: for every capacity `C > 0` and every list of fewer than `2 ^ 32` key/value
pairs, after one `hashmap_put` per pair on `hashmap_create(C)` (all allocations
succeeding) `map->size` is the number of distinct keys of the list,
`hashmap_contains` returns 1 for every key of the list and 0 for every other key. -/
theorem put_all_size_contains (sg : Bool) (capacity : Nat) (kvs : List (CStr × CStr))
    (hpos : 0 < capacity) (hcap : capacity < 2 ^ 32) (hlen : kvs.length < 2 ^ 32) :
    ∃ map0 map, hashmap_create true true capacity = some map0 ∧
      put_all sg map0 kvs = some map ∧
      map.size = (kvs.map Prod.fst).dedup.length ∧
      (∀ k, k ∈ kvs.map Prod.fst → hashmap_contains sg map k = some 1) ∧
      (∀ k, k ∉ kvs.map Prod.fst → hashmap_contains sg map k = some 0) := by
  have hreach : Reachable sg
      { size := 0, capacity := capacity, entries := List.replicate capacity [] } :=
    Reachable.create capacity _ hpos hcap (create_eq capacity)
  obtain ⟨m, h1, h2, _, h4, h5⟩ := put_all_spec sg hreach
    (fun k => by rw [create_bucket_empty]; rfl) (create_count capacity) kvs
  have hwf := reachable_wf h2
  refine ⟨_, m, create_eq capacity, h1, ?_, ?_, ?_⟩
  · rw [hwf.size_eq, h5, List.card_toFinset]
    apply Nat.mod_eq_of_lt
    have h6 : (kvs.map Prod.fst).dedup.length ≤ (kvs.map Prod.fst).length :=
      (List.dedup_sublist _).length_le
    rw [List.length_map] at h6
    omega
  · intro k hk
    exact (contains_one_iff hwf sg k).mpr ((h4 k).mpr hk)
  · intro k hk
    apply (contains_zero_iff hwf sg k).mpr
    cases hc : chain_find k (bucket_of sg m k) with
    | none => rfl
    | some e =>
      have := (h4 k).mp (by rw [hc]; rfl)
      exact absurd this hk

/-- Witness of C3: capacity 5, `put("foo", "bar")`: size 1, `contains("foo") = 1`,
`contains("baz") = 0`. -/
theorem put_all_size_contains_witness :
    (0 < 5 ∧ 5 < 2 ^ 32 ∧ [(s_foo, s_bar)].length < 2 ^ 32) ∧
      (∃ map0 map, hashmap_create true true 5 = some map0 ∧
        put_all true map0 [(s_foo, s_bar)] = some map ∧
        map.size = ([(s_foo, s_bar)].map Prod.fst).dedup.length ∧
        (∀ k, k ∈ [(s_foo, s_bar)].map Prod.fst → hashmap_contains true map k = some 1) ∧
        (∀ k, k ∉ [(s_foo, s_bar)].map Prod.fst → hashmap_contains true map k = some 0)) ∧
      (put_all true map5 [(s_foo, s_bar)]).bind (fun m => hashmap_contains true m s_foo)
        = some 1 ∧
      (put_all true map5 [(s_foo, s_bar)]).bind (fun m => hashmap_contains true m s_baz)
        = some 0 ∧
      (put_all true map5 [(s_foo, s_bar)]).map HashMap.size = some 1 :=
  ⟨⟨by decide, by decide, by decide⟩,
    put_all_size_contains true 5 [(s_foo, s_bar)] (by decide) (by decide) (by decide),
    by decide, by decide, by decide⟩

theorem size_remove_model {map : HashMap} (sg : Bool) (key : CStr) :
    (remove_model sg map key).size = uint_dec map.size := rfl

/-- C4, as amended: on every reachable map and for every key `k` that it contains,
`hashmap_remove(map, k)` returns 1 and afterwards `hashmap_contains(map, k)` is 0;
`map->size` is exactly one less than before whenever it was positive, and wraps
from 0 to `2 ^ 32 - 1` otherwise. -/
theorem remove_present (sg : Bool) (map : HashMap) (key : CStr) (h : Reachable sg map)
    (hc : hashmap_contains sg map key = some 1) :
    ∃ map', hashmap_remove sg map key = some (map', 1) ∧
      hashmap_contains sg map' key = some 0 ∧
      (0 < map.size → map'.size + 1 = map.size) ∧
      (map.size = 0 → map'.size = 2 ^ 32 - 1) := by
  have hwf := reachable_wf h
  have hf := (contains_one_iff hwf sg key).mp hc
  have hwf' := wf_remove_model hwf sg hf
  refine ⟨remove_model sg map key, ?_, ?_, ?_, ?_⟩
  · rw [remove_eq hwf, if_pos hf]
  · exact (contains_zero_iff hwf' sg key).mpr (find_remove_self hwf sg key)
  · intro hpos
    rw [size_remove_model, uint_dec, if_neg (Nat.pos_iff_ne_zero.mp hpos)]
    omega
  · intro hz
    rw [size_remove_model, uint_dec, if_pos hz]

/-- Witness of C4: capacity 5, after `put("foo", "bar")`, `remove("foo")` returns 1,
`contains("foo")` is 0 and the size goes from 1 to 0. -/
theorem remove_present_witness :
    (Reachable true map5_foo ∧ hashmap_contains true map5_foo s_foo = some 1) ∧
      (∃ map', hashmap_remove true map5_foo s_foo = some (map', 1) ∧
        hashmap_contains true map' s_foo = some 0 ∧
        (0 < map5_foo.size → map'.size + 1 = map5_foo.size) ∧
        (map5_foo.size = 0 → map'.size = 2 ^ 32 - 1)) ∧
      hashmap_remove true map5_foo s_foo = some (map5, 1) :=
  ⟨⟨Reachable.put map5 map5_foo s_foo s_bar 1
      (Reachable.create 5 map5 (by decide) (by decide) rfl) (by decide), by decide⟩,
    remove_present true map5_foo s_foo
      (Reachable.put map5 map5_foo s_foo s_bar 1
        (Reachable.create 5 map5 (by decide) (by decide) rfl) (by decide)) (by decide),
    by decide⟩

/-- Counterexample to C4 as stated: the map holding the first `2 ^ 32` keys of the
enumeration `nth_key` in one bucket is reachable, contains the empty key and has
size 0 (the counter has wrapped); removing the empty key returns 1 and leaves size
`2 ^ 32 - 1`, which is not one less than 0. -/
theorem remove_size_wraps :
    ∃ map map', nth_map true (2 ^ 32) = some map ∧ Reachable true map ∧
      hashmap_contains true map (nth_key 0) = some 1 ∧
      hashmap_remove true map (nth_key 0) = some (map', 1) ∧
      map.size = 0 ∧ map'.size = 2 ^ 32 - 1 ∧ map'.size + 1 ≠ map.size := by
  obtain ⟨m, h1, h2, _, _, h5, h6⟩ := nth_map_spec true (2 ^ 32)
  have hwf := reachable_wf h2
  have hsz : m.size = 0 := by
    rw [h5]
    exact Nat.mod_self _
  have hf := (h6 0).mpr two_pow_pos32
  have hs' : (remove_model true m (nth_key 0)).size = 2 ^ 32 - 1 := by
    rw [size_remove_model, hsz]
    rfl
  refine ⟨m, remove_model true m (nth_key 0), h1, h2, (contains_one_iff hwf true _).mpr hf,
    ?_, hsz, hs', ?_⟩
  · rw [remove_eq hwf, if_pos hf]
  · rw [hs', hsz]
    norm_num

/-- C5: on every reachable map and for every key `k` that it does not contain,
`hashmap_remove(map, k)` returns 0 and leaves the map as it was: size, capacity and
every bucket chain. -/
theorem remove_absent (sg : Bool) (map : HashMap) (key : CStr) (h : Reachable sg map)
    (hc : hashmap_contains sg map key = some 0) :
    hashmap_remove sg map key = some (map, 0) := by
  have hwf := reachable_wf h
  have hf := (contains_zero_iff hwf sg key).mp hc
  rw [remove_eq hwf, hf]
  rfl

/-- Witness of C5: `remove("foo")` on a fresh map of capacity 5 returns 0 and
changes nothing. -/
theorem remove_absent_witness :
    (Reachable true map5 ∧ hashmap_contains true map5 s_foo = some 0) ∧
      hashmap_remove true map5 s_foo = some (map5, 0) :=
  ⟨⟨Reachable.create 5 map5 (by decide) (by decide) rfl, by decide⟩,
    remove_absent true map5 s_foo (Reachable.create 5 map5 (by decide) (by decide) rfl)
      (by decide)⟩

/-- C6: on every reachable map, `hashmap_clear(map)` yields a map with size 0, the
same capacity `C`, every one of the `C` buckets empty, and `hashmap_contains`
returning 0 for every key. -/
theorem clear_empties (sg : Bool) (map : HashMap) (h : Reachable sg map) :
    ∃ map', hashmap_clear map = some map' ∧ map'.size = 0 ∧
      map'.capacity = map.capacity ∧
      map'.entries = List.replicate map.capacity [] ∧
      ∀ k, hashmap_contains sg map' k = some 0 := by
  obtain ⟨map', h1, h2, h3, h4, h5⟩ := clear_spec (reachable_wf h)
  refine ⟨map', h1, h3, h4, h5, fun k => ?_⟩
  apply (contains_zero_iff h2 sg k).mpr
  have hb : bucket_of sg map' k = [] := by
    unfold bucket_of
    rw [h5, List.getElem?_replicate]
    split <;> rfl
  rw [hb]
  rfl

/-- Witness of C6: capacity 5, `put("foo", "bar")`, `put("baz", "boo")`, `clear`:
size 0, `contains("foo") = contains("baz") = 0`. -/
theorem clear_empties_witness :
    Reachable true map5_foo_baz ∧
      (∃ map', hashmap_clear map5_foo_baz = some map' ∧ map'.size = 0 ∧
        map'.capacity = map5_foo_baz.capacity ∧
        map'.entries = List.replicate map5_foo_baz.capacity [] ∧
        ∀ k, hashmap_contains true map' k = some 0) ∧
      hashmap_clear map5_foo_baz = some map5 ∧
      hashmap_contains true map5 s_foo = some 0 ∧
      hashmap_contains true map5 s_baz = some 0 :=
  ⟨Reachable.put map5_foo map5_foo_baz s_baz s_boo 1
      (Reachable.put map5 map5_foo s_foo s_bar 1
        (Reachable.create 5 map5 (by decide) (by decide) rfl) (by decide)) (by decide),
    clear_empties true map5_foo_baz
      (Reachable.put map5_foo map5_foo_baz s_baz s_boo 1
        (Reachable.put map5 map5_foo s_foo s_bar 1
          (Reachable.create 5 map5 (by decide) (by decide) rfl) (by decide)) (by decide)),
    by decide, by decide, by decide⟩

theorem size_clear_index_model (map : HashMap) (index : Nat) :
    (clear_index_model map index).size =
      ((2 ^ 32 - 1) * ((map.entries[index]?).getD []).length + map.size) % 2 ^ 32 := rfl

/-- C7, as amended: on every reachable map of capacity `C` and for every index
`i < C`, `hashmap_clear_index(map, i)` empties bucket `i`, leaves every other bucket
and the capacity unchanged, and lowers `map->size` by the number `n` of entries that
were chained in bucket `i` modulo `2 ^ 32` (by exactly `n` whenever `n` is at most
the size before the call); afterwards no key whose index is `i` is contained, and
`hashmap_contains` and `hashmap_get` answer as before for every key of another
index. -/
theorem clear_index_frame (sg : Bool) (map : HashMap) (index : Nat) (h : Reachable sg map)
    (hi : index < map.capacity) :
    ∃ chain map', map.entries[index]? = some chain ∧
      hashmap_clear_index map index = some map' ∧
      map'.entries[index]? = some [] ∧
      (∀ j, j ≠ index → map'.entries[j]? = map.entries[j]?) ∧
      map'.capacity = map.capacity ∧
      (map'.size + chain.length) % 2 ^ 32 = map.size ∧
      (chain.length ≤ map.size → map'.size + chain.length = map.size) ∧
      (∀ k, hashmap_index sg map k = some index → hashmap_contains sg map' k = some 0) ∧
      (∀ k r, hashmap_index sg map k ≠ some index →
        hashmap_contains sg map' k = hashmap_contains sg map k ∧
        hashmap_get sg map' k r = hashmap_get sg map k r) := by
  have hwf := reachable_wf h
  have hwf' := wf_clear_index_model hwf hi
  have hlt : index < map.entries.length := by rw [hwf.len]; exact hi
  have hget : map.entries[index]? = some map.entries[index] := List.getElem?_eq_getElem hlt
  have hcount := entry_count_set [] (clear_index_model map index).size hget
  change entry_count (clear_index_model map index) + _ = _ at hcount
  rw [List.length_nil, Nat.add_zero] at hcount
  have hs := hwf.size_eq
  have hs' := hwf'.size_eq
  refine ⟨map.entries[index], clear_index_model map index, hget, clear_index_eq hwf hi,
    List.getElem?_set_self hlt, fun j hj => List.getElem?_set_ne (fun e => hj e.symm),
    rfl, ?_, ?_, ?_, ?_⟩
  · omega
  · intro hle
    omega
  · intro k hk
    rw [index_eq hwf] at hk
    apply (contains_zero_iff hwf' sg k).mpr
    rw [bucket_clear_index_model hwf sg hi, if_pos (Option.some.inj hk)]
    rfl
  · intro k r hk
    rw [index_eq hwf] at hk
    have hne : ¬ hashmap_hash sg k % map.capacity = index := fun e => hk (by rw [e])
    have hb : bucket_of sg (clear_index_model map index) k = bucket_of sg map k := by
      rw [bucket_clear_index_model hwf sg hi, if_neg hne]
    rw [contains_eq hwf', contains_eq hwf, get_eq hwf', get_eq hwf, hb]
    exact ⟨rfl, rfl⟩

/-- Witness of C7: capacity 5, `put("a", "test")`, `clear_index(0)`: size 0 and
`contains("a") = 0`. -/
theorem clear_index_frame_witness :
    (Reachable true map5_a ∧ 0 < map5_a.capacity) ∧
      (∃ chain map', map5_a.entries[0]? = some chain ∧
        hashmap_clear_index map5_a 0 = some map' ∧
        map'.entries[0]? = some [] ∧
        (∀ j, j ≠ 0 → map'.entries[j]? = map5_a.entries[j]?) ∧
        map'.capacity = map5_a.capacity ∧
        (map'.size + chain.length) % 2 ^ 32 = map5_a.size ∧
        (chain.length ≤ map5_a.size → map'.size + chain.length = map5_a.size) ∧
        (∀ k, hashmap_index true map5_a k = some 0 → hashmap_contains true map' k = some 0) ∧
        (∀ k r, hashmap_index true map5_a k ≠ some 0 →
          hashmap_contains true map' k = hashmap_contains true map5_a k ∧
          hashmap_get true map' k r = hashmap_get true map5_a k r)) ∧
      hashmap_clear_index map5_a 0 = some map5 ∧
      hashmap_contains true map5 s_a = some 0 :=
  ⟨⟨Reachable.put map5 map5_a s_a s_test 1
      (Reachable.create 5 map5 (by decide) (by decide) rfl) (by decide), by decide⟩,
    clear_index_frame true map5_a 0
      (Reachable.put map5 map5_a s_a s_test 1
        (Reachable.create 5 map5 (by decide) (by decide) rfl) (by decide)) (by decide),
    by decide, by decide⟩

/-- Counterexample to C7 as stated: the map holding the first `2 ^ 32` keys of the
enumeration `nth_key` in its only bucket is reachable and has size 0 (the counter
has wrapped); `hashmap_clear_index(map, 0)` unlinks the `2 ^ 32` entries of bucket 0
and leaves size 0, so the size has not gone down by the number of entries. -/
theorem clear_index_size_wraps :
    ∃ map chain map', nth_map true (2 ^ 32) = some map ∧ Reachable true map ∧
      map.capacity = 1 ∧ map.entries[0]? = some chain ∧ chain.length = 2 ^ 32 ∧
      hashmap_clear_index map 0 = some map' ∧
      map.size = 0 ∧ map'.size = 0 ∧ map'.size + chain.length ≠ map.size := by
  obtain ⟨m, h1, h2, h3, h4, h5, _⟩ := nth_map_spec true (2 ^ 32)
  have hwf := reachable_wf h2
  have hsz : m.size = 0 := by
    rw [h5]
    exact Nat.mod_self _
  have hlen : m.entries.length = 1 := by rw [hwf.len, h3]
  obtain ⟨chain, hch⟩ : ∃ chain, m.entries = [chain] := by
    cases hm : m.entries with
    | nil => rw [hm] at hlen; cases hlen
    | cons c rest =>
      cases rest with
      | nil => exact ⟨c, rfl⟩
      | cons d rest' => rw [hm] at hlen; simp at hlen
  have hcl : chain.length = 2 ^ 32 := by
    have : entry_count m = chain.length := by
      unfold entry_count
      rw [hch]
      simp
    rw [← this, h4]
  have hget : m.entries[0]? = some chain := by rw [hch]; rfl
  have hi : 0 < m.capacity := by rw [h3]; exact Nat.one_pos
  have hs' : (clear_index_model m 0).size = 0 := by
    rw [size_clear_index_model, hget, Option.getD_some, hcl, hsz, Nat.add_zero]
    exact Nat.mul_mod_left _ _
  refine ⟨m, chain, clear_index_model m 0, h1, h2, h3, hget, hcl, clear_index_eq hwf hi,
    hsz, hs', ?_⟩
  rw [hs', hsz, hcl]
  norm_num

theorem contains_put_self {map : HashMap} (h : WF map) (sg : Bool) (key value : CStr) :
    hashmap_contains sg (put_model sg map key value) key = some 1 := by
  rw [contains_eq (wf_put_model h sg key value), find_put_self h]
  rfl

theorem contains_put_other {map : HashMap} (h : WF map) (sg : Bool) {key key' : CStr}
    (value : CStr) (hne : key' ≠ key) :
    hashmap_contains sg (put_model sg map key value) key' = hashmap_contains sg map key' := by
  rw [contains_eq (wf_put_model h sg key value), contains_eq h, find_put_other h sg value hne]

theorem get_put_other {map : HashMap} (h : WF map) (sg : Bool) {key key' : CStr}
    (value : CStr) (hne : key' ≠ key) (result : CharPtr) :
    hashmap_get sg (put_model sg map key value) key' result =
      hashmap_get sg map key' result := by
  rw [get_eq (wf_put_model h sg key value), get_eq h, find_put_other h sg value hne]

theorem remove_contained {map : HashMap} (h : WF map) (sg : Bool) {key : CStr}
    (hc : hashmap_contains sg map key = some 1) :
    hashmap_remove sg map key = some (remove_model sg map key, 1) ∧
      WF (remove_model sg map key) ∧
      hashmap_contains sg (remove_model sg map key) key = some 0 ∧
      ∀ key', key' ≠ key → ∀ result,
        hashmap_contains sg (remove_model sg map key) key' = hashmap_contains sg map key' ∧
        hashmap_get sg (remove_model sg map key) key' result =
          hashmap_get sg map key' result := by
  have hf := (contains_one_iff h sg key).mp hc
  have hwf' := wf_remove_model h sg hf
  refine ⟨by rw [remove_eq h, if_pos hf], hwf',
    (contains_zero_iff hwf' sg key).mpr (find_remove_self h sg key), ?_⟩
  intro key' hne result
  rw [contains_eq hwf', contains_eq h, get_eq hwf', get_eq h, find_remove_other h sg hne]
  exact ⟨rfl, rfl⟩

/-- C8: on every reachable map and for every two distinct keys `k1`, `k2` of the
same bucket index, after `put(k1, v1)` and `put(k2, v2)` both keys are contained and
`get` gives `v1` and `v2`; removing either key returns 1 and leaves the other
contained with its value, after which removing the other returns 1 and neither is
contained. The statement is symmetric in the two keys, so it covers both orders of
the two puts. -/
theorem collision_chain (sg : Bool) (map : HashMap) (k1 k2 v1 v2 : CStr) (result : CharPtr)
    (h : Reachable sg map) (hne : k1 ≠ k2)
    (hidx : hashmap_index sg map k1 = hashmap_index sg map k2) :
    ∃ m1 m2, hashmap_put sg Allocs.ok map k1 v1 = some (m1, 1) ∧
      hashmap_put sg Allocs.ok m1 k2 v2 = some (m2, 1) ∧
      hashmap_index sg m2 k1 = hashmap_index sg m2 k2 ∧
      hashmap_contains sg m2 k1 = some 1 ∧ hashmap_contains sg m2 k2 = some 1 ∧
      hashmap_get sg m2 k1 result = some (1, CharPtr.str v1) ∧
      hashmap_get sg m2 k2 result = some (1, CharPtr.str v2) ∧
      (∃ m3 m4, hashmap_remove sg m2 k1 = some (m3, 1) ∧
        hashmap_contains sg m3 k1 = some 0 ∧ hashmap_contains sg m3 k2 = some 1 ∧
        hashmap_get sg m3 k2 result = some (1, CharPtr.str v2) ∧
        hashmap_remove sg m3 k2 = some (m4, 1) ∧
        hashmap_contains sg m4 k1 = some 0 ∧ hashmap_contains sg m4 k2 = some 0) ∧
      (∃ m3 m4, hashmap_remove sg m2 k2 = some (m3, 1) ∧
        hashmap_contains sg m3 k2 = some 0 ∧ hashmap_contains sg m3 k1 = some 1 ∧
        hashmap_get sg m3 k1 result = some (1, CharPtr.str v1) ∧
        hashmap_remove sg m3 k1 = some (m4, 1) ∧
        hashmap_contains sg m4 k1 = some 0 ∧ hashmap_contains sg m4 k2 = some 0) := by
  have hwf := reachable_wf h
  have hwf1 := wf_put_model hwf sg k1 v1
  have hwf2 := wf_put_model hwf1 sg k2 v2
  have hc1 : hashmap_contains sg (put_model sg (put_model sg map k1 v1) k2 v2) k1 = some 1 := by
    rw [contains_put_other hwf1 sg v2 hne, contains_put_self hwf]
  have hc2 : hashmap_contains sg (put_model sg (put_model sg map k1 v1) k2 v2) k2 = some 1 :=
    contains_put_self hwf1 sg k2 v2
  have hg1 : hashmap_get sg (put_model sg (put_model sg map k1 v1) k2 v2) k1 result
      = some (1, CharPtr.str v1) := by
    rw [get_put_other hwf1 sg v2 hne, get_put_self hwf]
  have hg2 : hashmap_get sg (put_model sg (put_model sg map k1 v1) k2 v2) k2 result
      = some (1, CharPtr.str v2) := get_put_self hwf1 sg k2 v2 result
  have hidx2 : hashmap_index sg (put_model sg (put_model sg map k1 v1) k2 v2) k1 =
      hashmap_index sg (put_model sg (put_model sg map k1 v1) k2 v2) k2 := hidx
  obtain ⟨ra, wa, ca, fa⟩ := remove_contained hwf2 sg hc1
  obtain ⟨rb, wb, cb, fb⟩ := remove_contained hwf2 sg hc2
  have hne' : k2 ≠ k1 := fun e => hne e.symm
  have ca2 := (fa k2 hne' result).1.trans hc2
  have cb1 := (fb k1 hne result).1.trans hc1
  obtain ⟨raa, _, caa, faa⟩ := remove_contained wa sg ca2
  obtain ⟨rbb, _, cbb, fbb⟩ := remove_contained wb sg cb1
  exact ⟨_, _, put_eq hwf sg k1 v1, put_eq hwf1 sg k2 v2, hidx2, hc1, hc2, hg1, hg2,
    ⟨_, _, ra, ca, ca2, (fa k2 hne' result).2.trans hg2, raa,
      (faa k1 hne result).1.trans ca, caa⟩,
    ⟨_, _, rb, cb, cb1, (fb k1 hne result).2.trans hg1, rbb, cbb,
      (fbb k2 hne' result).1.trans cb⟩⟩

/-- Witness of C8: capacity 5, keys `"a"` and `"f"`, both of index 0. -/
theorem collision_chain_witness :
    (Reachable true map5 ∧ s_a ≠ s_f ∧
      hashmap_index true map5 s_a = hashmap_index true map5 s_f) ∧
      (∃ m1 m2, hashmap_put true Allocs.ok map5 s_a s_foo = some (m1, 1) ∧
        hashmap_put true Allocs.ok m1 s_f s_bar = some (m2, 1) ∧
        hashmap_index true m2 s_a = hashmap_index true m2 s_f ∧
        hashmap_contains true m2 s_a = some 1 ∧ hashmap_contains true m2 s_f = some 1 ∧
        hashmap_get true m2 s_a CharPtr.null = some (1, CharPtr.str s_foo) ∧
        hashmap_get true m2 s_f CharPtr.null = some (1, CharPtr.str s_bar) ∧
        (∃ m3 m4, hashmap_remove true m2 s_a = some (m3, 1) ∧
          hashmap_contains true m3 s_a = some 0 ∧ hashmap_contains true m3 s_f = some 1 ∧
          hashmap_get true m3 s_f CharPtr.null = some (1, CharPtr.str s_bar) ∧
          hashmap_remove true m3 s_f = some (m4, 1) ∧
          hashmap_contains true m4 s_a = some 0 ∧ hashmap_contains true m4 s_f = some 0) ∧
        (∃ m3 m4, hashmap_remove true m2 s_f = some (m3, 1) ∧
          hashmap_contains true m3 s_f = some 0 ∧ hashmap_contains true m3 s_a = some 1 ∧
          hashmap_get true m3 s_a CharPtr.null = some (1, CharPtr.str s_foo) ∧
          hashmap_remove true m3 s_a = some (m4, 1) ∧
          hashmap_contains true m4 s_a = some 0 ∧ hashmap_contains true m4 s_f = some 0)) ∧
      hashmap_index true map5 s_a = some 0 ∧
      (put_all true map5 [(s_a, s_foo), (s_f, s_bar)]) = some map5_a_f :=
  ⟨⟨Reachable.create 5 map5 (by decide) (by decide) rfl, by decide, by decide⟩,
    collision_chain true map5 s_a s_f s_foo s_bar CharPtr.null
      (Reachable.create 5 map5 (by decide) (by decide) rfl) (by decide) (by decide),
    by decide, by decide⟩

theorem hash_step_eq (acc c : Nat) :
    ((((acc <<< 5) % 2 ^ 64) + acc) % 2 ^ 64 + c) % 2 ^ 64 = (acc * 33 + c) % 2 ^ 64 := by
  rw [Nat.shiftLeft_eq]
  omega

theorem hash_loop_eq_foldl (sg : Bool) (acc : Nat) (bytes : List Nat) :
    hashmap_hash_loop sg acc bytes =
      bytes.foldl (fun a b => (a * 33 + char_to_ulong sg b) % 2 ^ 64) acc := by
  induction bytes generalizing acc with
  | nil => rfl
  | cons b rest ih => rw [hashmap_hash_loop, ih, hash_step_eq, List.foldl_cons]

theorem char_to_ulong_of_unsigned {sg : Bool} {b : Nat} (h : sg = false ∨ b < 128) :
    char_to_ulong sg b = b := by
  unfold char_to_ulong
  rcases h with h | h
  · simp [h]
  · have : ¬ 128 ≤ b := by omega
    simp [this]

theorem foldl_unsigned (sg : Bool) (acc : Nat) (bytes : List Nat)
    (h : sg = false ∨ ∀ b ∈ bytes, b < 128) :
    bytes.foldl (fun a b => (a * 33 + char_to_ulong sg b) % 2 ^ 64) acc =
      bytes.foldl (fun a c => (a * 33 + c) % 2 ^ 64) acc := by
  induction bytes generalizing acc with
  | nil => rfl
  | cons b rest ih =>
    have hb : sg = false ∨ b < 128 := h.imp id (fun hh => hh b (List.mem_cons_self _ _))
    have hrest : sg = false ∨ ∀ x ∈ rest, x < 128 :=
      h.imp id (fun hh x hx => hh x (List.mem_cons_of_mem _ hx))
    rw [List.foldl_cons, List.foldl_cons, char_to_ulong_of_unsigned hb, ih _ hrest]

/-- C9, as amended: `hashmap_hash(key)` is the left fold over the key's bytes, from
5381, of `acc ↦ (acc * 33 + c) mod 2 ^ 64` (the code's step `(acc << 5) + acc + c`
in 64-bit arithmetic), where `c` is the character converted from `int` to
`unsigned long`: the byte value itself where plain `char` is unsigned or the byte is
below 128, so that the hash is then the djb2 reference over unsigned bytes, and the
byte value plus `2 ^ 64 - 256` where plain `char` is signed and the byte is 128 or
more. The hash of the empty key is 5381 and `hashmap_hash("a")` is 177670. Being a
function of the key, the hash is the same on every call. -/
theorem hash_is_djb2 (sg : Bool) (key : CStr) :
    hashmap_hash sg key =
        key.bytes.foldl (fun a b => (a * 33 + char_to_ulong sg b) % 2 ^ 64) 5381 ∧
      ((sg = false ∨ ∀ b ∈ key.bytes, b < 128) →
        hashmap_hash sg key = djb2_reference key.bytes) ∧
      (key.bytes = [] → hashmap_hash sg key = 5381) ∧
      hashmap_hash sg s_a = 177670 := by
  refine ⟨hash_loop_eq_foldl sg 5381 key.bytes, ?_, ?_, ?_⟩
  · intro h
    rw [hashmap_hash, hash_loop_eq_foldl, foldl_unsigned sg 5381 key.bytes h]
    rfl
  · intro h
    rw [hashmap_hash, h]
    rfl
  · cases sg <;> decide

/-- Witness of C9: the key `"foo"` has bytes below 128 and its hash is the djb2
reference, whatever the signedness of `char`. -/
theorem hash_is_djb2_witness :
    (true = false ∨ ∀ b ∈ s_foo.bytes, b < 128) ∧
      hashmap_hash true s_foo = djb2_reference s_foo.bytes ∧
      hashmap_hash true s_foo = 193491849 :=
  ⟨Or.inr (by decide), (hash_is_djb2 true s_foo).2.1 (Or.inr (by decide)), by decide⟩

/-- Counterexample to C9 as stated: where plain `char` is signed, the key `"\x80"`
hashes to `5381 * 33 - 128 = 177445`, while the djb2 reference over the unsigned
byte 128 is `5381 * 33 + 128 = 177701`. -/
theorem hash_signed_char_differs :
    hashmap_hash true s_x80 = 177445 ∧ djb2_reference s_x80.bytes = 177701 ∧
      hashmap_hash true s_x80 ≠ djb2_reference s_x80.bytes := by
  decide

/-- C10: for every map whose capacity `C` is positive (and an `unsigned int`),
`hashmap_index(map, k)` is `hashmap_hash(k) mod C`, which is below `C`, so nothing is
lost when the remainder is returned as `unsigned int`; it is the same for every map
of the same capacity, whatever its size and entries. With `C = 5` the indexes of
`"a"`, `"b"`, `"c"`, `"d"`, `"e"`, `"f"` are 0, 1, 2, 3, 4, 0. -/
theorem index_is_hash_mod (sg : Bool) (map : HashMap) (key : CStr)
    (hpos : 0 < map.capacity) (hcap : map.capacity < 2 ^ 32) :
    hashmap_index sg map key = some (hashmap_hash sg key % map.capacity) ∧
      hashmap_hash sg key % map.capacity < map.capacity ∧
      (∀ map' : HashMap, map'.capacity = map.capacity →
        hashmap_index sg map' key = hashmap_index sg map key) ∧
      (map.capacity = 5 →
        hashmap_index sg map s_a = some 0 ∧ hashmap_index sg map s_b = some 1 ∧
        hashmap_index sg map s_c = some 2 ∧ hashmap_index sg map s_d = some 3 ∧
        hashmap_index sg map s_e = some 4 ∧ hashmap_index sg map s_f = some 0) := by
  have hlt : hashmap_hash sg key % map.capacity < map.capacity := Nat.mod_lt _ hpos
  refine ⟨?_, hlt, ?_, ?_⟩
  · rw [hashmap_index, if_neg (Nat.pos_iff_ne_zero.mp hpos),
      Nat.mod_eq_of_lt (Nat.lt_trans hlt hcap)]
  · intro map' hc
    unfold hashmap_index
    rw [hc]
  · intro h5
    unfold hashmap_index
    rw [h5]
    cases sg <;> decide

/-- Witness of C10: the map of capacity 5 holding `"foo"`, and the key `"foo"` of
index 4. -/
theorem index_is_hash_mod_witness :
    (0 < map5_foo.capacity ∧ map5_foo.capacity < 2 ^ 32) ∧
      (hashmap_index true map5_foo s_foo = some (hashmap_hash true s_foo % map5_foo.capacity) ∧
        hashmap_hash true s_foo % map5_foo.capacity < map5_foo.capacity ∧
        (∀ map' : HashMap, map'.capacity = map5_foo.capacity →
          hashmap_index true map' s_foo = hashmap_index true map5_foo s_foo) ∧
        (map5_foo.capacity = 5 →
          hashmap_index true map5_foo s_a = some 0 ∧ hashmap_index true map5_foo s_b = some 1 ∧
          hashmap_index true map5_foo s_c = some 2 ∧ hashmap_index true map5_foo s_d = some 3 ∧
          hashmap_index true map5_foo s_e = some 4 ∧
          hashmap_index true map5_foo s_f = some 0)) ∧
      hashmap_index true map5_foo s_foo = some 4 :=
  ⟨⟨by decide, by decide⟩,
    index_is_hash_mod true map5_foo s_foo (by decide) (by decide), by decide⟩

/-- C11, as amended: hashing the one-byte key `"a"` (byte value 97) with
`hashmap_hash` gives `5381 * 33 + 97`, which is 177670, whatever the signedness of
plain `char`. -/
theorem hash_a_vector (sg : Bool) :
    hashmap_hash sg s_a = 5381 * 33 + 97 ∧ hashmap_hash sg s_a = 177670 := by
  cases sg <;> decide

/-- Counterexample to C11 as stated: `hashmap_hash("a")` is not 177674, and neither
is `5381 * 33 + 97`. -/
theorem hash_a_not_177674 :
    hashmap_hash true s_a ≠ 177674 ∧ hashmap_hash false s_a ≠ 177674 ∧
      hashmap_hash true s_a = 177670 ∧ 5381 * 33 + 97 ≠ 177674 := by
  decide

theorem create_index_lt (sg : Bool) (capacity : Nat) (hpos : 0 < capacity) (key : CStr) :
    hashmap_hash sg key % capacity % 2 ^ 32 < capacity :=
  Nat.lt_of_le_of_lt (Nat.mod_le _ _) (Nat.mod_lt _ hpos)

theorem create_locate (sg : Bool) (capacity : Nat) (hpos : 0 < capacity) (key : CStr) :
    hashmap_locate_entry sg
      { size := 0, capacity := capacity, entries := List.replicate capacity [] } key
      = some none := by
  have hlt := create_index_lt sg capacity hpos key
  simp only [hashmap_locate_entry, hashmap_index, if_neg (Nat.pos_iff_ne_zero.mp hpos),
    List.getElem?_replicate, if_pos hlt]
  rfl

/-- C12: for every capacity `C > 0`, `hashmap_create(C)` with both allocations
succeeding returns a map of capacity `C` and size 0 with exactly `C` buckets, all
empty; on it `hashmap_contains` and `hashmap_get` return 0 for every key (the
out-parameter is left as it was) and `hashmap_remove` returns 0 and changes
nothing. -/
theorem create_empty (sg : Bool) (capacity : Nat) (key : CStr) (result : CharPtr)
    (hpos : 0 < capacity) :
    ∃ map, hashmap_create true true capacity = some map ∧
      map.capacity = capacity ∧ map.size = 0 ∧
      map.entries.length = capacity ∧ (∀ chain ∈ map.entries, chain = []) ∧
      hashmap_contains sg map key = some 0 ∧
      hashmap_get sg map key result = some (0, result) ∧
      hashmap_remove sg map key = some (map, 0) := by
  have hlt := create_index_lt sg capacity hpos key
  refine ⟨_, create_eq capacity, rfl, rfl, List.length_replicate _ _,
    fun chain hc => (List.mem_replicate.mp hc).2, ?_, ?_, ?_⟩
  · rw [hashmap_contains, create_locate sg capacity hpos key]
  · rw [hashmap_get, create_locate sg capacity hpos key]
  · simp only [hashmap_remove, hashmap_index, if_neg (Nat.pos_iff_ne_zero.mp hpos),
      List.getElem?_replicate, if_pos hlt]
    rfl

/-- Witness of C12: `hashmap_create(5)` has capacity 5 and size 0, and does not
contain `"foo"`. -/
theorem create_empty_witness :
    0 < 5 ∧
      (∃ map, hashmap_create true true 5 = some map ∧
        map.capacity = 5 ∧ map.size = 0 ∧
        map.entries.length = 5 ∧ (∀ chain ∈ map.entries, chain = []) ∧
        hashmap_contains true map s_foo = some 0 ∧
        hashmap_get true map s_foo CharPtr.null = some (0, CharPtr.null) ∧
        hashmap_remove true map s_foo = some (map, 0)) ∧
      hashmap_create true true 5 = some map5 :=
  ⟨by decide, create_empty true 5 s_foo CharPtr.null (by decide), by decide⟩

/-- C13, the code at the failing input: on the fresh map of capacity 5 (size 0),
`hashmap_put("foo", "bar")` returns 0 when the key copy or the value copy cannot be
allocated, and the size is then 1: `map->size++` runs before
`hashmap_populate_entry` and is not undone. When the new entry or the reallocation
cannot be allocated, `hashmap_put` returns 0 and the size is unchanged. -/
theorem put_failure_size_drift :
    Reachable true map5 ∧ map5.size = 0 ∧
      hashmap_put true Allocs.key_fails map5 s_foo s_bar = some (map5_null, 0) ∧
      map5_null.size = 1 ∧
      hashmap_put true Allocs.value_fails map5 s_foo s_bar = some (map5_dangling, 0) ∧
      map5_dangling.size = 1 ∧
      hashmap_put true Allocs.entry_fails map5 s_foo s_bar = some (map5, 0) ∧
      hashmap_put true Allocs.realloc_fails map5_foo s_foo s_baz = some (map5_foo, 0) :=
  ⟨Reachable.create 5 map5 (by decide) (by decide) rfl, by decide, by decide, by decide,
    by decide, by decide, by decide, by decide⟩

/-- C14, the code at the failing input: on the reachable map of capacity 5 holding
`"a"`, `hashmap_put("f", "bar")` with a failing key copy returns 0 and leaves an
entry with no key and no value chained behind the entry of `"a"`; afterwards
`hashmap_contains`, `hashmap_get`, `hashmap_put` and `hashmap_remove` on `"f"` compare
that absent key and are undefined, while `"a"`, met first in the chain, is still
found. After a failing value copy on the fresh map the entry keeps the address of
the released key buffer, and the lookups as well as `hashmap_clear` (which releases
that buffer again) are undefined. -/
theorem put_failure_breaks_map :
    Reachable true map5_a ∧
      hashmap_put true Allocs.key_fails map5_a s_f s_bar = some (map5_a_null, 0) ∧
      map5_a_null.entries[0]? =
        some [Entry.mk (CharPtr.str s_a) (CharPtr.str s_test),
          Entry.mk CharPtr.null CharPtr.null] ∧
      hashmap_contains true map5_a_null s_f = none ∧
      hashmap_get true map5_a_null s_f CharPtr.null = none ∧
      hashmap_put true Allocs.ok map5_a_null s_f s_bar = none ∧
      hashmap_remove true map5_a_null s_f = none ∧
      hashmap_contains true map5_a_null s_a = some 1 ∧
      hashmap_put true Allocs.value_fails map5 s_foo s_bar = some (map5_dangling, 0) ∧
      hashmap_contains true map5_dangling s_foo = none ∧
      hashmap_clear map5_dangling = none :=
  ⟨Reachable.put map5 map5_a s_a s_test 1
      (Reachable.create 5 map5 (by decide) (by decide) rfl) (by decide),
    by decide, by decide, by decide, by decide, by decide, by decide, by decide, by decide,
    by decide, by decide⟩

/-- C20, the code at the failing input: on a fresh entry,
`hashmap_populate_entry(entry, key, value)` with the key copy allocated and the
value copy failing returns 0 and leaves `entry->key` holding the address of the
released key buffer, not `NULL`, so that `hashmap_destroy_entry` on the entry is
undefined (it releases the buffer again). When both copies are allocated it returns
1 with the key and the value supplied; when the key copy fails it returns 0 with key
and value absent. -/
theorem populate_value_failure_dangles (key value : CStr) :
    hashmap_create_entry true = some fresh_entry ∧
      fresh_entry = Entry.mk CharPtr.null CharPtr.null ∧
      hashmap_populate_entry true false fresh_entry key value =
        (Entry.mk CharPtr.dangling CharPtr.null, 0) ∧
      (hashmap_populate_entry true false fresh_entry key value).1.key ≠ CharPtr.null ∧
      hashmap_destroy_entry (hashmap_populate_entry true false fresh_entry key value).1
        = none ∧
      hashmap_populate_entry true true fresh_entry key value =
        (Entry.mk (CharPtr.str key) (CharPtr.str value), 1) ∧
      hashmap_populate_entry false true fresh_entry key value = (fresh_entry, 0) ∧
      hashmap_destroy_entry fresh_entry = some () :=
  ⟨rfl, rfl, rfl, fun h => CharPtr.noConfusion h, rfl, rfl, rfl, rfl⟩

theorem set_of_getElem? {α : Type} {l : List α} {i : Nat} {a : α} (h : l[i]? = some a) :
    l.set i a = l := by
  induction l generalizing i with
  | nil => rfl
  | cons x rest ih =>
    cases i with
    | zero =>
      simp at h
      subst h
      rfl
    | succ j =>
      simp at h
      rw [List.set_cons_succ, ih h]

theorem entry_for_key_found {map : HashMap} (h : WF map) (sg : Bool) {key : CStr}
    {e : Entry} (hf : chain_find key (bucket_of sg map key) = some e) :
    ∃ pos, hashmap_entry_for_key sg true map key =
        some (map, some (hashmap_hash sg key % map.capacity, pos)) ∧
      (bucket_of sg map key)[pos]? = some e := by
  obtain ⟨i, h1, h2, _⟩ := entry_for_key_loop_found key key (bucket_populated h sg key) hf 0
  refine ⟨i, ?_, h2⟩
  simp only [hashmap_entry_for_key, index_eq h, bucket_get h, h1, Option.map_some',
    Nat.zero_add, set_of_getElem? (bucket_get h sg key)]

theorem entry_for_key_new {map : HashMap} (h : WF map) (sg : Bool) {key : CStr}
    (hf : chain_find key (bucket_of sg map key) = none) :
    hashmap_entry_for_key sg true map key =
      some ({ size := map.size, capacity := map.capacity,
              entries := map.entries.set (hashmap_hash sg key % map.capacity)
                (bucket_of sg map key ++ [Entry.mk CharPtr.null CharPtr.null]) },
        some (hashmap_hash sg key % map.capacity, (bucket_of sg map key).length)) := by
  obtain ⟨h1, _⟩ := entry_for_key_loop_new key key (bucket_populated h sg key) hf 0
  simp only [hashmap_entry_for_key, index_eq h, bucket_get h, h1, Option.map_some',
    Nat.zero_add]

/-- C15: on every reachable map, with the allocation succeeding: when the map
contains `k`, `hashmap_entry_for_key(map, k)` returns an entry of the chain of bucket
`hashmap_index(k)` whose key is `k` and the map is unchanged; when the map does not
contain `k`, it returns a new entry with key and value absent, linked as the last
node of that chain (the head when the chain was empty), the nodes chained before,
their order, every other bucket, the capacity and the size being unchanged. -/
theorem entry_for_key_spec (sg : Bool) (map : HashMap) (key : CStr)
    (h : Reachable sg map) :
    ∃ index chain, hashmap_index sg map key = some index ∧
      map.entries[index]? = some chain ∧
      (hashmap_contains sg map key = some 1 →
        ∃ pos entry, hashmap_entry_for_key sg true map key = some (map, some (index, pos)) ∧
          entry_at map (index, pos) = some entry ∧ entry.key = CharPtr.str key) ∧
      (hashmap_contains sg map key = some 0 →
        ∃ map', hashmap_entry_for_key sg true map key =
            some (map', some (index, chain.length)) ∧
          entry_at map' (index, chain.length) = some (Entry.mk CharPtr.null CharPtr.null) ∧
          map'.entries[index]? = some (chain ++ [Entry.mk CharPtr.null CharPtr.null]) ∧
          (∀ j, j ≠ index → map'.entries[j]? = map.entries[j]?) ∧
          map'.capacity = map.capacity ∧ map'.size = map.size) := by
  have hwf := reachable_wf h
  have hlt := index_lt hwf sg key
  refine ⟨_, _, index_eq hwf sg key, bucket_get hwf sg key, ?_, ?_⟩
  · intro hc
    have hs := (contains_one_iff hwf sg key).mp hc
    obtain ⟨e, he⟩ := Option.isSome_iff_exists.mp hs
    obtain ⟨pos, h1, h2⟩ := entry_for_key_found hwf sg he
    refine ⟨pos, e, h1, ?_, (chain_find_some he).2⟩
    simp only [entry_at, bucket_get hwf]
    exact h2
  · intro hc
    have hn := (contains_zero_iff hwf sg key).mp hc
    refine ⟨_, entry_for_key_new hwf sg hn, ?_, List.getElem?_set_self hlt,
      fun j hj => List.getElem?_set_ne (fun e => hj e.symm), rfl, rfl⟩
    simp only [entry_at, List.getElem?_set_self hlt]
    simp

/-- Witness of C15: capacity 5, after `put("foo", "bar")`: `entry_for_key("foo")`
returns the entry of key `"foo"` and `entry_for_key("baz")` a linked entry whose key
is `NULL`. -/
theorem entry_for_key_spec_witness :
    Reachable true map5_foo ∧
      (∃ index chain, hashmap_index true map5_foo s_baz = some index ∧
        map5_foo.entries[index]? = some chain ∧
        (hashmap_contains true map5_foo s_baz = some 1 →
          ∃ pos entry, hashmap_entry_for_key true true map5_foo s_baz =
              some (map5_foo, some (index, pos)) ∧
            entry_at map5_foo (index, pos) = some entry ∧ entry.key = CharPtr.str s_baz) ∧
        (hashmap_contains true map5_foo s_baz = some 0 →
          ∃ map', hashmap_entry_for_key true true map5_foo s_baz =
              some (map', some (index, chain.length)) ∧
            entry_at map' (index, chain.length) =
              some (Entry.mk CharPtr.null CharPtr.null) ∧
            map'.entries[index]? = some (chain ++ [Entry.mk CharPtr.null CharPtr.null]) ∧
            (∀ j, j ≠ index → map'.entries[j]? = map5_foo.entries[j]?) ∧
            map'.capacity = map5_foo.capacity ∧ map'.size = map5_foo.size)) ∧
      hashmap_entry_for_key true true map5_foo s_foo = some (map5_foo, some (4, 0)) ∧
      entry_at map5_foo (4, 0) = some (Entry.mk (CharPtr.str s_foo) (CharPtr.str s_bar)) ∧
      hashmap_entry_for_key true true map5_foo s_baz =
        some (map5_foo_baz_linked, some (2, 0)) ∧
      entry_at map5_foo_baz_linked (2, 0) = some (Entry.mk CharPtr.null CharPtr.null) :=
  ⟨Reachable.put map5 map5_foo s_foo s_bar 1
      (Reachable.create 5 map5 (by decide) (by decide) rfl) (by decide),
    entry_for_key_spec true map5_foo s_baz
      (Reachable.put map5 map5_foo s_foo s_bar 1
        (Reachable.create 5 map5 (by decide) (by decide) rfl) (by decide)),
    by decide, by decide, by decide, by decide⟩

/-- C16, as amended: in every map state reachable from `hashmap_create(C)`, `C > 0`,
by `hashmap_put`, `hashmap_remove`, `hashmap_clear` and `hashmap_clear_index` (all
allocations succeeding), `map->size` is the number of entry nodes chained in the
buckets modulo `2 ^ 32`, hence that number itself while it is below `2 ^ 32`.
`hashmap_entry_for_key` is not among the operations that keep this: called on a key
that the map does not contain it links one more node and leaves the size as it
was. -/
theorem size_counts_entries (sg : Bool) (map : HashMap) (h : Reachable sg map) :
    map.size = entry_count map % 2 ^ 32 ∧
      (entry_count map < 2 ^ 32 → map.size = entry_count map) ∧
      (∀ key, hashmap_contains sg map key = some 0 →
        ∃ map' r, hashmap_entry_for_key sg true map key = some (map', some r) ∧
          map'.size = map.size ∧ entry_count map' = entry_count map + 1) := by
  have hwf := reachable_wf h
  refine ⟨hwf.size_eq, fun hlt => ?_, fun key hc => ?_⟩
  · rw [hwf.size_eq, Nat.mod_eq_of_lt hlt]
  · have hn := (contains_zero_iff hwf sg key).mp hc
    refine ⟨_, _, entry_for_key_new hwf sg hn, rfl, ?_⟩
    have hcount := entry_count_set
      (bucket_of sg map key ++ [Entry.mk CharPtr.null CharPtr.null]) map.size
      (bucket_get hwf sg key)
    rw [List.length_append, List.length_singleton] at hcount
    omega

/-- Witness of C16: the map of capacity 5 holding `"foo"` and `"baz"` has size 2 and
two chained entries. -/
theorem size_counts_entries_witness :
    Reachable true map5_foo_baz ∧
      (map5_foo_baz.size = entry_count map5_foo_baz % 2 ^ 32 ∧
        (entry_count map5_foo_baz < 2 ^ 32 → map5_foo_baz.size = entry_count map5_foo_baz) ∧
        (∀ key, hashmap_contains true map5_foo_baz key = some 0 →
          ∃ map' r, hashmap_entry_for_key true true map5_foo_baz key = some (map', some r) ∧
            map'.size = map5_foo_baz.size ∧
            entry_count map' = entry_count map5_foo_baz + 1)) ∧
      map5_foo_baz.size = 2 ∧ entry_count map5_foo_baz = 2 :=
  ⟨Reachable.put map5_foo map5_foo_baz s_baz s_boo 1
      (Reachable.put map5 map5_foo s_foo s_bar 1
        (Reachable.create 5 map5 (by decide) (by decide) rfl) (by decide)) (by decide),
    size_counts_entries true map5_foo_baz
      (Reachable.put map5_foo map5_foo_baz s_baz s_boo 1
        (Reachable.put map5 map5_foo s_foo s_bar 1
          (Reachable.create 5 map5 (by decide) (by decide) rfl) (by decide)) (by decide)),
    by decide, by decide⟩

/-- Counterexample to C16 as stated: `hashmap_entry_for_key(map, "baz")` on the fresh
map of capacity 5 returns a new entry chained in bucket 2 and leaves the size 0,
with one entry node in the chains; and the reachable map holding the first `2 ^ 32`
keys of the enumeration `nth_key` has `2 ^ 32` entry nodes and size 0. -/
theorem size_invariant_broken :
    (Reachable true map5 ∧
      hashmap_entry_for_key true true map5 s_baz = some (map5_baz_linked, some (2, 0)) ∧
      map5_baz_linked.size = 0 ∧ entry_count map5_baz_linked = 1 ∧
      map5_baz_linked.size ≠ entry_count map5_baz_linked) ∧
    (∃ map, nth_map true (2 ^ 32) = some map ∧ Reachable true map ∧
      map.size = 0 ∧ entry_count map = 2 ^ 32 ∧ map.size ≠ entry_count map) := by
  refine ⟨⟨Reachable.create 5 map5 (by decide) (by decide) rfl, by decide, by decide,
    by decide, by decide⟩, ?_⟩
  obtain ⟨m, h1, h2, _, h4, h5, _⟩ := nth_map_spec true (2 ^ 32)
  have hsz : m.size = 0 := by
    rw [h5]
    exact Nat.mod_self _
  refine ⟨m, h1, h2, hsz, h4, ?_⟩
  rw [hsz, h4]
  norm_num

theorem placed_set {sg : Bool} {map : HashMap} (hp : Placed sg map) {index : Nat}
    {chain' : List Entry} (size : Nat)
    (hc : ∀ k, CharPtr.str k ∈ chain'.map Entry.key →
      hashmap_hash sg k % map.capacity = index) :
    Placed sg { size := size, capacity := map.capacity,
                entries := map.entries.set index chain' } := by
  intro i chain hi k hk
  by_cases he : index = i
  · subst he
    have hi' : (map.entries.set index chain')[index]? = some chain := hi
    rw [List.getElem?_set] at hi'
    simp only [if_true] at hi'
    split at hi'
    · cases hi'
      exact hc k hk
    · cases hi'
  · have hi' : (map.entries.set index chain')[i]? = some chain := hi
    rw [List.getElem?_set_ne he] at hi'
    exact hp i chain hi' k hk

theorem placed_put_model {sg : Bool} {map : HashMap} (h : WF map) (hp : Placed sg map)
    (key value : CStr) : Placed sg (put_model sg map key value) := by
  apply placed_set hp
  intro k hk
  rw [keys_put] at hk
  have hold : CharPtr.str k ∈ (bucket_of sg map key).map Entry.key →
      hashmap_hash sg k % map.capacity = hashmap_hash sg key % map.capacity :=
    fun hm => hp _ _ (bucket_get h sg key) k hm
  split at hk
  · exact hold hk
  · rcases List.mem_append.mp hk with hm | hm
    · exact hold hm
    · rw [List.mem_singleton] at hm
      rw [CharPtr.str.inj hm]

theorem placed_remove_model {sg : Bool} {map : HashMap} (h : WF map) (hp : Placed sg map)
    (key : CStr) : Placed sg (remove_model sg map key) := by
  apply placed_set hp
  intro k hk
  exact hp _ _ (bucket_get h sg key) k
    (((erase_sublist key (bucket_of sg map key)).map Entry.key).subset hk)

theorem placed_clear_index_model {sg : Bool} {map : HashMap} (hp : Placed sg map)
    (index : Nat) : Placed sg (clear_index_model map index) := by
  apply placed_set hp
  intro k hk
  cases hk

theorem placed_empty (sg : Bool) {map : HashMap} (capacity : Nat)
    (h : map.entries = List.replicate capacity []) : Placed sg map := by
  intro i chain hi k hk
  rw [h] at hi
  have hmem := List.getElem?_mem hi
  rw [(List.mem_replicate.mp hmem).2] at hk
  cases hk

theorem reachable_placed {sg : Bool} {map : HashMap} (h : Reachable sg map) :
    Placed sg map := by
  induction h with
  | create capacity map hpos hlt h =>
    rw [create_eq] at h
    cases h
    exact placed_empty sg capacity rfl
  | put map map' key value ret hm h ih =>
    rw [put_eq (reachable_wf hm)] at h
    cases h
    exact placed_put_model (reachable_wf hm) ih key value
  | remove map map' key ret hm h ih =>
    rw [remove_eq (reachable_wf hm)] at h
    by_cases hf : (chain_find key (bucket_of sg map key)).isSome
    · rw [if_pos hf] at h
      cases h
      exact placed_remove_model (reachable_wf hm) ih key
    · rw [if_neg hf] at h
      cases h
      exact ih
  | clear map map' hm h _ =>
    obtain ⟨m, h1, _, _, _, h5⟩ := clear_spec (reachable_wf hm)
    rw [h1] at h
    cases h
    exact placed_empty sg _ h5
  | clear_index map map' index hm h ih =>
    by_cases hi : index < map.capacity
    · rw [clear_index_eq (reachable_wf hm) hi] at h
      cases h
      exact placed_clear_index_model ih index
    · have hnone : map.entries[index]? = none :=
        List.getElem?_eq_none (by rw [(reachable_wf hm).len]; omega)
      simp [hashmap_clear_index, hnone] at h

/-- C17: in every map state reachable from `hashmap_create(C)`, `C > 0`, by
`hashmap_put`, `hashmap_remove`, `hashmap_clear` and `hashmap_clear_index` (all
allocations succeeding), no two entries of a bucket chain have equal keys and every
entry chained in bucket `i` holds a key whose `hashmap_index` is `i`; hence two
chained entries with equal keys are the same node: same bucket, same place in the
chain. -/
theorem keys_unique_and_placed (sg : Bool) (map : HashMap) (h : Reachable sg map) :
    (∀ i chain, map.entries[i]? = some chain →
      (chain.map Entry.key).Nodup ∧
      ∀ e ∈ chain, ∃ k, e.key = CharPtr.str k ∧ hashmap_index sg map k = some i) ∧
    (∀ (i j : Nat) (ci cj : List Entry) (p q : Nat) (e1 e2 : Entry),
      map.entries[i]? = some ci → map.entries[j]? = some cj →
      ci[p]? = some e1 → cj[q]? = some e2 → e1.key = e2.key → i = j ∧ p = q) := by
  have hwf := reachable_wf h
  have hp := reachable_placed h
  have hplace : ∀ i chain, map.entries[i]? = some chain → ∀ e ∈ chain,
      ∃ k, e.key = CharPtr.str k ∧ hashmap_hash sg k % map.capacity = i := by
    intro i chain hi e he
    obtain ⟨k, v, rfl⟩ := (hwf.chains chain (List.getElem?_mem hi)).1 e he
    exact ⟨k, rfl, hp i chain hi k (List.mem_map.mpr ⟨_, he, rfl⟩)⟩
  constructor
  · intro i chain hi
    refine ⟨(hwf.chains chain (List.getElem?_mem hi)).2, fun e he => ?_⟩
    obtain ⟨k, hk, hidx⟩ := hplace i chain hi e he
    exact ⟨k, hk, by rw [index_eq hwf, hidx]⟩
  · intro i j ci cj p q e1 e2 hi hj hp1 hq1 hkey
    obtain ⟨k1, hk1, hidx1⟩ := hplace i ci hi e1 (List.getElem?_mem hp1)
    obtain ⟨k2, hk2, hidx2⟩ := hplace j cj hj e2 (List.getElem?_mem hq1)
    have hk : k1 = k2 := CharPtr.str.inj (by rw [← hk1, ← hk2, hkey])
    have hij : i = j := by rw [← hidx1, ← hidx2, hk]
    subst hij
    have hc : ci = cj := Option.some.inj (hi.symm.trans hj)
    subst hc
    refine ⟨rfl, ?_⟩
    have hnd := (hwf.chains ci (List.getElem?_mem hi)).2
    have hlt : p < (ci.map Entry.key).length := by
      rw [List.length_map]
      exact (List.getElem?_eq_some_iff.mp hp1).1
    apply List.getElem?_inj hlt hnd
    rw [List.getElem?_map, List.getElem?_map, hp1, hq1]
    exact congrArg some hkey

/-- Witness of C17: the map of capacity 5 holding `"foo"` (bucket 4) and `"baz"`
(bucket 2). -/
theorem keys_unique_and_placed_witness :
    Reachable true map5_foo_baz ∧
      ((∀ i chain, map5_foo_baz.entries[i]? = some chain →
        (chain.map Entry.key).Nodup ∧
        ∀ e ∈ chain, ∃ k, e.key = CharPtr.str k ∧
          hashmap_index true map5_foo_baz k = some i) ∧
      (∀ (i j : Nat) (ci cj : List Entry) (p q : Nat) (e1 e2 : Entry),
      map5_foo_baz.entries[i]? = some ci →
        map5_foo_baz.entries[j]? = some cj →
        ci[p]? = some e1 → cj[q]? = some e2 → e1.key = e2.key → i = j ∧ p = q)) ∧
      hashmap_index true map5_foo_baz s_foo = some 4 ∧
      hashmap_index true map5_foo_baz s_baz = some 2 :=
  ⟨Reachable.put map5_foo map5_foo_baz s_baz s_boo 1
      (Reachable.put map5 map5_foo s_foo s_bar 1
        (Reachable.create 5 map5 (by decide) (by decide) rfl) (by decide)) (by decide),
    keys_unique_and_placed true map5_foo_baz
      (Reachable.put map5_foo map5_foo_baz s_baz s_boo 1
        (Reachable.put map5 map5_foo s_foo s_bar 1
          (Reachable.create 5 map5 (by decide) (by decide) rfl) (by decide)) (by decide)),
    by decide, by decide⟩

theorem remove_other {map : HashMap} (h : WF map) (sg : Bool) {key key' : CStr}
    (hne : key' ≠ key) (result : CharPtr) :
    ∃ map' ret, hashmap_remove sg map key = some (map', ret) ∧
      hashmap_contains sg map' key' = hashmap_contains sg map key' ∧
      hashmap_get sg map' key' result = hashmap_get sg map key' result := by
  by_cases hf : (chain_find key (bucket_of sg map key)).isSome = true
  · obtain ⟨hr, _, _, hfr⟩ := remove_contained h sg ((contains_one_iff h sg key).mpr hf)
    exact ⟨_, 1, hr, (hfr key' hne result).1, (hfr key' hne result).2⟩
  · refine ⟨map, 0, ?_, rfl, rfl⟩
    rw [remove_eq h, if_neg hf]

/-- C18: on every reachable map (all allocations succeeding) and for every two
distinct keys `k` and `k'`, in the same bucket or not, `hashmap_get(map, k')` (found
flag and value) and `hashmap_contains(map, k')` give the same after
`hashmap_put(map, k, v)` as before it, and the same after `hashmap_remove(map, k)` as
before it. -/
theorem put_remove_frame (sg : Bool) (map : HashMap) (key key' value : CStr)
    (result : CharPtr) (h : Reachable sg map) (hne : key ≠ key') :
    (∃ map', hashmap_put sg Allocs.ok map key value = some (map', 1) ∧
      hashmap_get sg map' key' result = hashmap_get sg map key' result ∧
      hashmap_contains sg map' key' = hashmap_contains sg map key') ∧
    (∃ map' ret, hashmap_remove sg map key = some (map', ret) ∧
      hashmap_get sg map' key' result = hashmap_get sg map key' result ∧
      hashmap_contains sg map' key' = hashmap_contains sg map key') ∧
    (∃ found value', hashmap_get sg map key' result = some (found, value')) ∧
    (∃ found, hashmap_contains sg map key' = some found) := by
  have hwf := reachable_wf h
  have hne' : key' ≠ key := fun e => hne e.symm
  obtain ⟨mr, ret, hr, hrc, hrg⟩ := remove_other hwf sg hne' result
  exact ⟨⟨_, put_eq hwf sg key value, get_put_other hwf sg value hne' result,
      contains_put_other hwf sg value hne'⟩,
    ⟨mr, ret, hr, hrg, hrc⟩,
    ⟨_, _, get_eq hwf sg key' result⟩, ⟨_, contains_eq hwf sg key'⟩⟩

/-- Witness of C18: on the map of capacity 5 holding `"a"`, putting or removing the
colliding key `"f"` leaves the answers for `"a"` as they were. -/
theorem put_remove_frame_witness :
    (Reachable true map5_a ∧ s_f ≠ s_a) ∧
      ((∃ map', hashmap_put true Allocs.ok map5_a s_f s_bar = some (map', 1) ∧
        hashmap_get true map' s_a CharPtr.null = hashmap_get true map5_a s_a CharPtr.null ∧
        hashmap_contains true map' s_a = hashmap_contains true map5_a s_a) ∧
      (∃ map' ret, hashmap_remove true map5_a s_f = some (map', ret) ∧
        hashmap_get true map' s_a CharPtr.null = hashmap_get true map5_a s_a CharPtr.null ∧
        hashmap_contains true map' s_a = hashmap_contains true map5_a s_a) ∧
      (∃ found value', hashmap_get true map5_a s_a CharPtr.null = some (found, value')) ∧
      (∃ found, hashmap_contains true map5_a s_a = some found)) ∧
      hashmap_get true map5_a s_a CharPtr.null = some (1, CharPtr.str s_test) ∧
      hashmap_index true map5_a s_f = hashmap_index true map5_a s_a :=
  ⟨⟨Reachable.put map5 map5_a s_a s_test 1
      (Reachable.create 5 map5 (by decide) (by decide) rfl) (by decide), by decide⟩,
    put_remove_frame true map5_a s_f s_a s_bar CharPtr.null
      (Reachable.put map5 map5_a s_a s_test 1
        (Reachable.create 5 map5 (by decide) (by decide) rfl) (by decide)) (by decide),
    by decide, by decide⟩

/-- C19: in every map state reachable from `hashmap_create(C)`, `C > 0`, by
`hashmap_put`, `hashmap_remove`, `hashmap_clear` and `hashmap_clear_index` (all
allocations succeeding), every entry chained in a bucket holds a key string and a
value string, so the comparison `strcmp(entry->key, key)` is defined on every
chained entry; hence `hashmap_locate_entry`, `hashmap_entry_for_key` and
`hashmap_remove` are defined for every key, and a `hashmap_get` that returns 1 gives
a value string. -/
theorem chained_entries_populated (sg : Bool) (map : HashMap) (h : Reachable sg map) :
    (∀ chain ∈ map.entries, ∀ e ∈ chain,
      (∃ k v, e = Entry.mk (CharPtr.str k) (CharPtr.str v)) ∧
      ∀ key, ∃ b, strcmp_eq_zero e.key key = some b) ∧
    (∀ key, (∃ r, hashmap_locate_entry sg map key = some r) ∧
      (∃ r, hashmap_entry_for_key sg true map key = some r) ∧
      (∃ r, hashmap_remove sg map key = some r) ∧
      (∀ result value, hashmap_get sg map key result = some (1, value) →
        ∃ s, value = CharPtr.str s)) := by
  have hwf := reachable_wf h
  constructor
  · intro chain hc e he
    obtain ⟨k, v, rfl⟩ := (hwf.chains chain hc).1 e he
    exact ⟨⟨k, v, rfl⟩, fun key => ⟨_, rfl⟩⟩
  · intro key
    refine ⟨⟨_, locate_eq hwf sg key⟩, ?_, ⟨_, remove_eq hwf sg key⟩, ?_⟩
    · cases hf : chain_find key (bucket_of sg map key) with
      | none => exact ⟨_, entry_for_key_new hwf sg hf⟩
      | some e =>
        obtain ⟨pos, h1, _⟩ := entry_for_key_found hwf sg hf
        exact ⟨_, h1⟩
    · intro result value hg
      rw [get_eq hwf] at hg
      cases hf : chain_find key (bucket_of sg map key) with
      | none =>
        rw [hf] at hg
        simp at hg
      | some e =>
        rw [hf] at hg
        obtain ⟨k, v, rfl⟩ := bucket_populated hwf sg key e (chain_find_some hf).1
        simp at hg
        exact ⟨v, hg.symm⟩

/-- Witness of C19: the map of capacity 5 holding `"foo"` and `"baz"`. -/
theorem chained_entries_populated_witness :
    Reachable true map5_foo_baz ∧
      ((∀ chain ∈ map5_foo_baz.entries, ∀ e ∈ chain,
        (∃ k v, e = Entry.mk (CharPtr.str k) (CharPtr.str v)) ∧
        ∀ key, ∃ b, strcmp_eq_zero e.key key = some b) ∧
      (∀ key, (∃ r, hashmap_locate_entry true map5_foo_baz key = some r) ∧
        (∃ r, hashmap_entry_for_key true true map5_foo_baz key = some r) ∧
        (∃ r, hashmap_remove true map5_foo_baz key = some r) ∧
        (∀ result value, hashmap_get true map5_foo_baz key result = some (1, value) →
          ∃ s, value = CharPtr.str s))) ∧
      hashmap_get true map5_foo_baz s_baz CharPtr.null = some (1, CharPtr.str s_boo) :=
  ⟨Reachable.put map5_foo map5_foo_baz s_baz s_boo 1
      (Reachable.put map5 map5_foo s_foo s_bar 1
        (Reachable.create 5 map5 (by decide) (by decide) rfl) (by decide)) (by decide),
    chained_entries_populated true map5_foo_baz
      (Reachable.put map5_foo map5_foo_baz s_baz s_boo 1
        (Reachable.put map5 map5_foo s_foo s_bar 1
          (Reachable.create 5 map5 (by decide) (by decide) rfl) (by decide)) (by decide)),
    by decide⟩

end Hashmap
